import Mathlib

/-!
# LogDB: a log-structured key-value store

A shallow embedding of `header.go`, `entry.go` and `db.go`.

Conventions of the embedding.

* A byte is a natural number (below 256 for every byte the program produces);
  a byte slice is a `List Nat`.
* `uint32` and `uint64` values are natural numbers reduced `% 2 ^ 32` and
  `% 2 ^ 64` at the places where the Go code converts or computes in that type.
  File offsets (`int64`) and slice lengths (`int`) are natural numbers: a file
  of `2 ^ 63` bytes does not exist.
* The log file is the list of its bytes.  Every access of the source to the file
  starts with a `Seek`, so the position of the handle between two calls carries
  no information and is not part of the state.  File operations of the
  operating system (`Seek`, `Write`, `Sync`, `OpenFile`) succeed; the only
  read failure is reaching the end of the file.
* A Go function returning `(value, error)` returns a pair whose second
  component is `none` for a `nil` error; where the source returns a `nil`
  pointer exactly when it returns an error (`get`, `decodeEntry`, `Open`), the
  pair is an `Except`.  A run-time panic (index or slice bounds out of range) is
  the outcome `Run.panic`.
* The functions of the Go standard library that the program calls
  (`binary.PutUvarint`, `binary.ReadUvarint`, `io.ReadFull`, `io.CopyN`) are
  embedded from their Go source.
* The hash function is the field `hashFunc` of the store (`xxhash.Sum64` in
  `Open`); it is a parameter here.
-/

namespace LogDB

/-- A byte slice. -/
abbrev Bytes := List Nat

/-- The places where the program wraps an error with `fmt.Errorf("...: %w", err)`. -/
inductive Context where
  /-- The text `read entry, unexpected EOF` in `get` and `find`. -/
  | readEntryUnexpectedEOF
  /-- The text `read entry` in `get` and `find`. -/
  | readEntry
  /-- The text `unexpected EOF, expected entry` in `buildIndex`. -/
  | expectedEntry
  /-- The text `build index` in `Open`. -/
  | buildIndex
  deriving DecidableEq, Repr

/-- The error values of the program. -/
inductive Error where
  /-- The value `io.EOF`. -/
  | EOF
  /-- The value `io.ErrUnexpectedEOF`. -/
  | ErrUnexpectedEOF
  /-- The overflow error of `encoding/binary`. -/
  | errOverflow
  /-- The value `ErrNotExists` of `db.go`. -/
  | ErrNotExists
  /-- The error `keys and values have different length` of `BatchSet`. -/
  | differentLength
  /-- An error made by `fmt.Errorf` with `%w` around another error. -/
  | wrap (ctx : Context) (err : Error)
  deriving DecidableEq, Repr

/-- The outcome of running a Go function: it returns, or it panics. -/
inductive Run (α : Type) where
  /-- The function returned. -/
  | ret (a : α)
  /-- The function panicked (index or slice bounds out of range). -/
  | panic
  deriving DecidableEq, Repr

/-- The constant `MaxHeaderSize` of `header.go`. -/
def MaxHeaderSize : Nat := 11

/-- The constant `MinHeaderSize` of `header.go`. -/
def MinHeaderSize : Nat := 3

/-- The struct `header`: `meta` is a byte, `klen` and `vlen` are `uint32`,
`offset` is the position of the first key byte and is not stored on disk. -/
structure header where
  meta : Nat
  klen : Nat
  vlen : Nat
  offset : Nat
  deriving DecidableEq, Repr

/-- The struct `entry`. -/
structure entry where
  value : Bytes
  key : Bytes
  deriving DecidableEq, Repr

/-! ## Standard library -/

/-- The function `binary.PutUvarint(buf, x)`: while `x >= 0x80` it stores
`byte(x) | 0x80` in the next cell of `buf` and shifts `x` right by 7, then stores
`byte(x)`; it returns the number of cells written.  The result is the buffer
after the writes and that count; `none` is the panic of an index beyond the
buffer.  The recursion walks down the buffer cell by cell (`buf[i]`, `i++`). -/
def PutUvarint : Bytes → Nat → Option (Bytes × Nat)
  | [], _ => none
  | _ :: buf, x =>
    if x ≥ 0x80 then
      match PutUvarint buf (x >>> 7) with
      | none => none
      | some (buf1, n) => some (((x % 256) ||| 0x80) :: buf1, n + 1)
    else
      some ((x % 256) :: buf, 1)

/-- The struct `readerCount`: the bytes of the file that the buffered reader
has not delivered yet, and the count of the bytes delivered. -/
structure readerCount where
  reader : Bytes
  bytesRead : Nat
  deriving DecidableEq, Repr

/-- The method `readerCount.ReadByte`. -/
def readerCount.ReadByte (r : readerCount) : (Nat × Option Error) × readerCount :=
  match r.reader with
  | [] => ((0, some Error.EOF), r)
  | b :: rest => ((b, none), { reader := rest, bytesRead := r.bytesRead + 1 })

/-- The loop of `binary.ReadUvarint`: `n` iterations remain, `i` is the loop
counter, `x` the value accumulated so far and `s` the shift. -/
def ReadUvarintLoop : Nat → Nat → Nat → Nat → readerCount → (Nat × Option Error) × readerCount
  | 0, _, x, _, r => ((x, some Error.errOverflow), r)
  | n + 1, i, x, s, r =>
    match r.ReadByte with
    | ((_, some err), r1) =>
      ((x, some (if i > 0 ∧ err = Error.EOF then Error.ErrUnexpectedEOF else err)), r1)
    | ((b, none), r1) =>
      if b < 0x80 then
        if i = 9 ∧ b > 1 then ((x, some Error.errOverflow), r1)
        else (((x ||| (b <<< s)) % 2 ^ 64, none), r1)
      else
        ReadUvarintLoop n (i + 1) ((x ||| ((b &&& 0x7f) <<< s)) % 2 ^ 64) (s + 7) r1

/-- The function `binary.ReadUvarint(r)`: at most `MaxVarintLen64 = 10` bytes.
The end of the stream before the first byte of the varint is `io.EOF`, inside the
varint it is `io.ErrUnexpectedEOF`. -/
def ReadUvarint (r : readerCount) : (Nat × Option Error) × readerCount :=
  ReadUvarintLoop 10 0 0 0 r

/-- The function `io.ReadFull(r, buf)` for a buffer of `n` bytes over a stream
that holds `s`: the buffer after the call, the number of bytes read, the error,
and the rest of the stream.  An empty buffer reads nothing and succeeds; no byte
at all gives `io.EOF`, fewer than `n` give `io.ErrUnexpectedEOF`. -/
def io.ReadFull (s : Bytes) (n : Nat) : (Bytes × Nat × Option Error) × Bytes :=
  if n ≤ s.length then ((s.take n, n, none), s.drop n)
  else if s.length = 0 then ((List.replicate n 0, 0, some Error.EOF), [])
  else ((s ++ List.replicate (n - s.length) 0, s.length, some Error.ErrUnexpectedEOF), [])

/-- The call `io.ReadFull(r, buf)` on a `readerCount`, whose `Read` adds the bytes
delivered to `bytesRead`. -/
def readerCount.ReadFull (r : readerCount) (n : Nat) : (Bytes × Nat × Option Error) × readerCount :=
  let res := io.ReadFull r.reader n
  (res.1, { reader := res.2, bytesRead := r.bytesRead + res.1.2.1 })

/-- The call `io.CopyN(ioutil.Discard, r, n)` on a `readerCount`: it takes up to
`n` bytes from the stream and returns how many it took, with `io.EOF` when the
stream ended before `n`. -/
def readerCount.CopyNDiscard (r : readerCount) (n : Nat) : (Nat × Option Error) × readerCount :=
  if n ≤ r.reader.length then
    ((n, none), { reader := r.reader.drop n, bytesRead := r.bytesRead + n })
  else
    ((r.reader.length, some Error.EOF), { reader := [], bytesRead := r.bytesRead + r.reader.length })

/-- The slice expression `buf[i:]`; `none` is the panic of a bound beyond the slice. -/
def sliceFrom (buf : Bytes) (i : Nat) : Option Bytes :=
  if i ≤ buf.length then some (buf.drop i) else none

/-- The slice expression `buf[:j]`; `none` is the panic of a bound beyond the slice. -/
def sliceTo (buf : Bytes) (j : Nat) : Option Bytes :=
  if j ≤ buf.length then some (buf.take j) else none

/-- The built-in `copy(dst, src)`: the destination after the copy of
`min(len(dst), len(src))` bytes. -/
def copy (dst src : Bytes) : Bytes :=
  src.take dst.length ++ dst.drop src.length

/-! ## header.go -/

/-- The method `header.encode(buf)`: the buffer after the writes and the number
of bytes written; `none` is the panic of an index beyond the buffer. -/
def header.encode (h : header) (buf : Bytes) : Option (Bytes × Nat) :=
  match buf with
  | [] => none
  | _ :: rest =>
    match PutUvarint rest (h.klen % 2 ^ 64) with
    | none => none
    | some (rest1, n1) =>
      match PutUvarint (rest1.drop n1) (h.vlen % 2 ^ 64) with
      | none => none
      | some (rest2, n2) => some (h.meta :: (rest1.take n1 ++ rest2), 1 + n1 + n2)

/-- The method `header.decodeFrom(r)`: the header after the call (its fields are
assigned one by one, `offset` is left alone), the error, and the reader. -/
def header.decodeFrom (h : header) (r : readerCount) : (header × Option Error) × readerCount :=
  match r.ReadByte with
  | ((b, some err), r1) => (({ h with meta := b }, some err), r1)
  | ((b, none), r1) =>
    let h1 := { h with meta := b }
    match ReadUvarint r1 with
    | ((_, some err), r2) => ((h1, some err), r2)
    | ((klen, none), r2) =>
      let h2 := { h1 with klen := klen % 2 ^ 32 }
      match ReadUvarint r2 with
      | ((_, some err), r3) => ((h2, some err), r3)
      | ((vlen, none), r3) => (({ h2 with vlen := vlen % 2 ^ 32 }, none), r3)

/-- The method `header.deleted`. -/
def header.deleted (h : header) : Bool :=
  h.meta &&& 1 == 1

/-! ## entry.go -/

/-- The function `decodeEntry(r, h, getVal)`: the entry or the error (the source
returns a `nil` entry exactly when it returns an error), the count of bytes it
reports, and the reader. -/
def decodeEntry (r : readerCount) (h : header) (getVal : Bool) :
    (Except Error entry × Nat) × readerCount :=
  match r.ReadFull h.klen with
  | ((_, n, some err), r1) => ((Except.error err, n), r1)
  | ((key, n, none), r1) =>
    let bytesRead := n
    if h.deleted || !getVal then
      match r1.CopyNDiscard h.vlen with
      | ((_, some err), r2) => ((Except.error err, bytesRead), r2)
      | ((m, none), r2) => ((Except.ok { value := [], key := key }, bytesRead + m), r2)
    else
      match r1.ReadFull h.vlen with
      | ((_, _, some err), r2) => ((Except.error err, bytesRead), r2)
      | ((value, _, none), r2) => ((Except.ok { value := value, key := key }, bytesRead + n), r2)

/-! ## db.go -/

/-- The struct `Database`: `f` is the content of the log file, `index` the map
from key hash to header (`none` for a hash that is not a key of the map). -/
structure Database where
  f : Bytes
  hashFunc : Bytes → Nat
  index : Nat → Option header

/-- The statement `copy(buf[i:], src)`: the buffer after the copy; `none` is the
panic of the slice expression. -/
def copyAt (buf : Bytes) (i : Nat) (src : Bytes) : Option Bytes :=
  match sliceFrom buf i with
  | none => none
  | some dst => some (buf.take i ++ copy dst src)

/-- The assignment `index[x] = h` of a Go map. -/
def indexInsert (index : Nat → Option header) (x : Nat) (h : header) : Nat → Option header :=
  fun y => if y = x then some h else index y

/-- The call `delete(index, x)` of a Go map. -/
def indexDelete (index : Nat → Option header) (x : Nat) : Nat → Option header :=
  fun y => if y = x then none else index y

/-- The method `Database.save(key, value, isDelete, fsync)`: the database after
the call and the error returned. -/
def Database.save (d : Database) (key value : Bytes) (isDelete fsync : Bool) :
    Run (Database × Option Error) :=
  let h : header := { meta := 0, klen := key.length % 2 ^ 32, vlen := 0, offset := 0 }
  let bufSize := MaxHeaderSize + key.length
  let h : header :=
    if isDelete then { h with meta := h.meta ||| 1, vlen := 0 }
    else { h with vlen := value.length % 2 ^ 32 }
  let bufSize := if isDelete then bufSize else bufSize + value.length
  let buf := List.replicate bufSize 0
  match h.encode buf with
  | none => Run.panic
  | some (buf, hsize) =>
    let bufN := hsize
    match copyAt buf bufN key with
    | none => Run.panic
    | some buf =>
      let bufN := bufN + key.length
      match (if !isDelete then (copyAt buf bufN value).map (fun b => (b, bufN + value.length))
             else some (buf, bufN)) with
      | none => Run.panic
      | some (buf, bufN) =>
        let offset := d.f.length
        match sliceTo buf bufN with
        | none => Run.panic
        | some written =>
          let f := d.f ++ written
          let _ := fsync
          let keyHash := d.hashFunc key
          let h := { h with offset := offset + hsize }
          Run.ret ({ d with
            f := f
            index := if isDelete then indexDelete d.index keyHash
                     else indexInsert d.index keyHash h }, none)

/-- The method `Database.get(key)`: the entry or the error. -/
def Database.get (d : Database) (key : Bytes) : Run (Except Error entry) :=
  let hashKey := d.hashFunc key
  match d.index hashKey with
  | none => Run.ret (Except.error Error.ErrNotExists)
  | some h =>
    match io.ReadFull (d.f.drop h.offset) ((h.klen + h.vlen) % 2 ^ 32) with
    | ((_, _, some err), _) =>
      if err = Error.EOF then
        Run.ret (Except.error (Error.wrap Context.readEntryUnexpectedEOF err))
      else Run.ret (Except.error (Error.wrap Context.readEntry err))
    | ((buf, _, none), _) =>
      match sliceTo buf h.klen, sliceFrom buf h.klen with
      | some k, some v => Run.ret (Except.ok { value := v, key := k })
      | _, _ => Run.panic

/-- The method `Database.Set(key, value)`. -/
def Database.Set (d : Database) (key value : Bytes) : Run (Database × Option Error) :=
  d.save key value false true

/-- The method `Database.Get(key)`: the value (`none` for a `nil` slice) and the
error. -/
def Database.Get (d : Database) (key : Bytes) : Run (Option Bytes × Option Error) :=
  match d.get key with
  | Run.panic => Run.panic
  | Run.ret (Except.error err) => Run.ret (none, some err)
  | Run.ret (Except.ok e) => Run.ret (some e.value, none)

/-- The method `Database.Delete(key)`: the database after the call and the error. -/
def Database.Delete (d : Database) (key : Bytes) : Run (Database × Option Error) :=
  match d.get key with
  | Run.panic => Run.panic
  | Run.ret (Except.error err) => Run.ret (d, some err)
  | Run.ret (Except.ok e) => d.save e.key [] true true

/-- The loop of `Database.BatchSet`: `err` is the error of the last `save`. -/
def Database.BatchSetLoop (d : Database) :
    List Bytes → List Bytes → Option Error → Run (Database × Option Error)
  | k :: keys, v :: values, _ =>
    match d.save k v false false with
    | Run.panic => Run.panic
    | Run.ret (d1, err) => Database.BatchSetLoop d1 keys values err
  | _, _, err => Run.ret (d, err)

/-- The method `Database.BatchSet(keys, values)`. -/
def Database.BatchSet (d : Database) (keys values : List Bytes) : Run (Database × Option Error) :=
  if keys.length ≠ values.length then Run.ret (d, some Error.differentLength)
  else
    match d.BatchSetLoop keys values none with
    | Run.panic => Run.panic
    | Run.ret (d1, err) =>
      match err with
      | some _ => Run.ret (d1, none)
      | none => Run.ret (d1, err)

/-- The method `Database.Close`: the content the log file keeps, and the error. -/
def Database.Close (d : Database) : Bytes × Option Error :=
  (d.f, none)

/-- The loop of `Database.buildIndex`, with a bound on the number of iterations:
`none` when the bound is reached, otherwise the map built and the error. -/
def buildIndexLoop (hashFunc : Bytes → Nat) :
    Nat → header → readerCount → (Nat → Option header) →
      Option ((Nat → Option header) × Option Error)
  | 0, _, _, _ => none
  | fuel + 1, h, rc, index =>
    match h.decodeFrom rc with
    | ((_, some err), _) =>
      if err = Error.EOF then some (index, none) else some (index, some err)
    | ((h1, none), rc1) =>
      let offset := rc1.bytesRead
      match decodeEntry rc1 h1 false with
      | ((Except.error err, _), _) =>
        if err = Error.EOF then some (index, some (Error.wrap Context.expectedEntry err))
        else some (index, some err)
      | ((Except.ok e, _), rc2) =>
        let h2 := { h1 with offset := offset }
        buildIndexLoop hashFunc fuel h2 rc2 (indexInsert index (hashFunc e.key) h2)

/-- The method `Database.buildIndex`: it scans the whole file and, without an
error, replaces the index.  Every iteration but the last takes at least three
bytes, so `len(file) + 1` iterations are enough; `none` would mean that the bound
was too small. -/
def Database.buildIndex (d : Database) : Option (Database × Option Error) :=
  match buildIndexLoop d.hashFunc (d.f.length + 1)
      { meta := 0, klen := 0, vlen := 0, offset := 0 } { reader := d.f, bytesRead := 0 }
      (fun _ => none) with
  | none => none
  | some (_, some err) => some (d, some err)
  | some (index, none) => some ({ d with index := index }, none)

/-- The function `Open(path)`, for the hash function `hashFunc` and the content
`log` of the file at `path` (empty for a file that `Open` creates): the database
or the error; `none` would mean that the iteration bound of the scan was too
small. -/
def Open (hashFunc : Bytes → Nat) (log : Bytes) : Option (Except Error Database) :=
  let db : Database := { f := log, hashFunc := hashFunc, index := fun _ => none }
  match db.buildIndex with
  | none => none
  | some (_, some err) => some (Except.error (Error.wrap Context.buildIndex err))
  | some (db1, none) => some (Except.ok db1)

/-! ## Specification-level definitions -/

/-- The unsigned varint of the specification (base 128, low seven bits per
byte, continuation in the high bit, least-significant group first). -/
def uvarint (x : Nat) : Bytes :=
  if x < 128 then [x] else (x % 128 + 128) :: uvarint (x / 128)
termination_by x
decreasing_by omega

/-- The bytes of the header of a record: the meta byte, then the two lengths as
unsigned varints. -/
def headerBytes (meta klen vlen : Nat) : Bytes :=
  meta :: (uvarint klen ++ uvarint vlen)

/-- The bytes of a record: the header bytes, the key, the value. -/
def recordBytes (meta : Nat) (key value : Bytes) : Bytes :=
  headerBytes meta key.length value.length ++ (key ++ value)

/-- A call of a public method by a client of the store. -/
inductive Call where
  /-- The call `Set(key, value)`. -/
  | set (key value : Bytes)
  /-- The call `Delete(key)`. -/
  | delete (key : Bytes)
  /-- The call `Get(key)`. -/
  | get (key : Bytes)
  /-- The call `BatchSet(keys, values)`. -/
  | batchSet (keys values : List Bytes)

/-- The database a method leaves behind: the one it returns with; a call that
panics does so before its first write and leaves the database as it was. -/
def Run.state (d : Database) : Run (Database × Option Error) → Database
  | Run.ret (d1, _) => d1
  | Run.panic => d

/-- The database after a call.  `Get` has no write to the file or to the index
in the source, so it leaves the database as it is. -/
def Database.call (d : Database) : Call → Database
  | Call.set key value => Run.state d (d.Set key value)
  | Call.delete key => Run.state d (d.Delete key)
  | Call.get _ => d
  | Call.batchSet keys values => Run.state d (d.BatchSet keys values)

/-- The database after a sequence of calls. -/
def Database.run (d : Database) : List Call → Database
  | [] => d
  | c :: cs => Database.run (d.call c) cs

/-- The keys a call passes to the store. -/
def Call.keys : Call → List Bytes
  | Call.set key _ => [key]
  | Call.delete key => [key]
  | Call.get key => [key]
  | Call.batchSet keys _ => keys

/-- The values a call passes to the store. -/
def Call.values : Call → List Bytes
  | Call.set _ value => [value]
  | Call.delete _ => []
  | Call.get _ => []
  | Call.batchSet _ values => values

/-- The input domain of the specification: the length of every key and of every
value of the call fits in 32 bits. -/
def Call.inDomain (c : Call) : Prop :=
  (∀ k ∈ c.keys, k.length < 2 ^ 32) ∧ (∀ v ∈ c.values, v.length < 2 ^ 32)

/-- A call of `Set` or `Delete`. -/
def Call.isSetOrDelete : Call → Prop
  | Call.set _ _ => True
  | Call.delete _ => True
  | _ => False

/-- The store states reachable from a successful `Open` by calls of `Set` and
`Delete` within the input domain. -/
inductive Reachable : Database → Prop where
  /-- The state after `Open` succeeded on some log. -/
  | opened (hashFunc : Bytes → Nat) (log : Bytes) (d : Database) :
      Open hashFunc log = some (Except.ok d) → Reachable d
  /-- The state after one more call. -/
  | step (d : Database) (c : Call) :
      Reachable d → c.isSetOrDelete → c.inDomain → Reachable (d.call c)

/-- The reader `r1` is the reader `r` after `k` more bytes were delivered. -/
def readerCount.advancedBy (r r1 : readerCount) (k : Nat) : Prop :=
  k ≤ r.reader.length ∧ r1.reader = r.reader.drop k ∧ r1.bytesRead = r.bytesRead + k

/-- The validity of an index for a log (the invariant of the store): every
header of the index has lengths that fit in 32 bits, its record lies inside the
log, and the key bytes at its offset hash to the key of the map. -/
def indexValid (hashFunc : Bytes → Nat) (log : Bytes) (index : Nat → Option header) : Prop :=
  ∀ x h, index x = some h →
    h.klen < 2 ^ 32 ∧ h.vlen < 2 ^ 32 ∧ h.offset + h.klen + h.vlen ≤ log.length ∧
    hashFunc ((log.drop h.offset).take h.klen) = x

/-- A call `Set(key, value)` within the input domain. -/
def Call.isSetInDomain : Call → Prop
  | Call.set key value => key.length < 2 ^ 32 ∧ value.length < 2 ^ 32
  | _ => False

/-- The invariant of the store: its index is valid for its log. -/
def Database.valid (d : Database) : Prop :=
  indexValid d.hashFunc d.f d.index

/-- The scan of `buildIndex` from a reader on, with the bound that the rest of
the file is sure to stay under (one more than the number of bytes left). -/
def scan (hashFunc : Bytes → Nat) (h : header) (rc : readerCount)
    (index : Nat → Option header) : Option ((Nat → Option header) × Option Error) :=
  buildIndexLoop hashFunc (rc.reader.length + 1) h rc index

/-- How a rebuilt index stands to the index in memory: under every hash the two
hold the same entry, or the index in memory holds none and the rebuilt one holds
a tombstone header (with value length 0). -/
def rebuiltFrom (live rebuilt : Nat → Option header) : Prop :=
  ∀ x, live x = rebuilt x ∨
    (live x = none ∧ ∃ t, rebuilt x = some t ∧ t.deleted = true ∧ t.vlen = 0)

/-- The log made of the records `(meta, key, value)` of a list, one after the
other. -/
def recordsLog (recs : List (Nat × Bytes × Bytes)) : Bytes :=
  (recs.map fun r => recordBytes r.1 r.2.1 r.2.2).flatten

/-- A call of `Delete`. -/
def Call.isDelete : Call → Prop
  | Call.delete _ => True
  | _ => False

/-! ## Bytes and varints -/

set_option maxRecDepth 100000 in
theorem byte_or_0x80 (x : Nat) : (x % 256) ||| 0x80 = x % 128 + 128 := by
  have h : ∀ b, b < 256 → b ||| 0x80 = b % 128 + 128 := by decide
  rw [h (x % 256) (Nat.mod_lt _ (by decide))]
  omega

set_option maxRecDepth 100000 in
theorem byte_and_0x7f (x : Nat) : (x % 128 + 128) &&& 0x7f = x % 128 := by
  have h : ∀ b, b < 256 → b &&& 0x7f = b % 128 := by decide
  rw [h (x % 128 + 128) (by omega)]
  omega

theorem or_shiftLeft_of_lt (acc v s : Nat) (h : acc < 2 ^ s) :
    acc ||| (v <<< s) = acc + v * 2 ^ s := by
  rw [Nat.shiftLeft_eq, Nat.or_comm, Nat.mul_comm v, ← Nat.mul_add_lt_is_or h, Nat.add_comm]

theorem uvarint_lt (x : Nat) (h : x < 128) : uvarint x = [x] := by
  rw [uvarint, if_pos h]

theorem uvarint_ge (x : Nat) (h : 128 ≤ x) :
    uvarint x = (x % 128 + 128) :: uvarint (x / 128) := by
  rw [uvarint, if_neg (by omega)]

theorem uvarint_length_pos (x : Nat) : 1 ≤ (uvarint x).length := by
  by_cases h : x < 128
  · simp [uvarint_lt x h]
  · simp [uvarint_ge x (by omega)]

theorem uvarint_length_le (n : Nat) : ∀ x, x < 2 ^ (7 * (n + 1)) → (uvarint x).length ≤ n + 1 := by
  induction n with
  | zero =>
    intro x hx
    rw [uvarint_lt x (by simpa using hx)]
    simp
  | succ n ih =>
    intro x hx
    by_cases h : x < 128
    · rw [uvarint_lt x h]; simp
    · rw [uvarint_ge x (by omega)]
      have h2 : x / 128 < 2 ^ (7 * (n + 1)) := by
        rw [Nat.div_lt_iff_lt_mul (by decide)]
        calc x < 2 ^ (7 * (n + 1 + 1)) := hx
          _ = 2 ^ (7 * (n + 1)) * 128 := by
            rw [show 7 * (n + 1 + 1) = 7 * (n + 1) + 7 by ring, pow_add]; norm_num
      have := ih (x / 128) h2
      simp only [List.length_cons]
      omega

theorem uvarint_length_le_five (x : Nat) (h : x < 2 ^ 32) : (uvarint x).length ≤ 5 :=
  uvarint_length_le 4 x (lt_trans h (by norm_num))

theorem uvarint_length_le_ten (x : Nat) (h : x < 2 ^ 64) : (uvarint x).length ≤ 10 :=
  uvarint_length_le 9 x (lt_trans h (by norm_num))

theorem uvarint_byte_lt (x : Nat) : ∀ b ∈ uvarint x, b < 256 := by
  induction x using Nat.strong_induction_on with
  | _ x ih =>
    intro b hb
    by_cases h : x < 128
    · rw [uvarint_lt x h] at hb
      simp at hb; omega
    · rw [uvarint_ge x (by omega)] at hb
      rcases List.mem_cons.mp hb with hb | hb
      · omega
      · exact ih (x / 128) (by omega) b hb

/-- On a buffer that is long enough `binary.PutUvarint` writes the varint of the
specification at the front of the buffer and returns its length. -/
theorem PutUvarint_eq (x : Nat) : ∀ buf : Bytes, (uvarint x).length ≤ buf.length →
    PutUvarint buf x = some (uvarint x ++ buf.drop (uvarint x).length, (uvarint x).length) := by
  induction x using Nat.strong_induction_on with
  | _ x ih =>
    intro buf hlen
    cases buf with
    | nil =>
      have := uvarint_length_pos x
      simp only [List.length_nil] at hlen
      omega
    | cons c buf =>
      by_cases h : x < 128
      · have h1 : ¬ x ≥ 0x80 := by omega
        rw [uvarint_lt x h]
        simp only [PutUvarint, if_neg h1]
        simp
        omega
      · have h1 : x ≥ 0x80 := by omega
        rw [uvarint_ge x (by omega)] at hlen ⊢
        simp only [List.length_cons, Nat.add_le_add_iff_right] at hlen
        simp only [PutUvarint, if_pos h1, Nat.shiftRight_eq_div_pow]
        rw [show x / 2 ^ 7 = x / 128 by norm_num, ih (x / 128) (by omega) buf hlen, byte_or_0x80]
        simp

/-- A buffer that is too short makes `binary.PutUvarint` panic. -/
theorem PutUvarint_none (x : Nat) : ∀ buf : Bytes, buf.length < (uvarint x).length →
    PutUvarint buf x = none := by
  induction x using Nat.strong_induction_on with
  | _ x ih =>
    intro buf hlen
    cases buf with
    | nil => rfl
    | cons c buf =>
      by_cases h : x < 128
      · rw [uvarint_lt x h] at hlen
        simp at hlen
      · have h1 : x ≥ 0x80 := by omega
        rw [uvarint_ge x (by omega)] at hlen
        simp only [List.length_cons, Nat.add_lt_add_iff_right] at hlen
        simp only [PutUvarint, if_pos h1, Nat.shiftRight_eq_div_pow]
        rw [show x / 2 ^ 7 = x / 128 by norm_num, ih (x / 128) (by omega) buf hlen]

theorem ReadByte_cons (b : Nat) (rest : Bytes) (c : Nat) :
    readerCount.ReadByte { reader := b :: rest, bytesRead := c } =
      ((b, none), { reader := rest, bytesRead := c + 1 }) := rfl

theorem ReadByte_nil (c : Nat) :
    readerCount.ReadByte { reader := [], bytesRead := c } =
      ((0, some Error.EOF), { reader := [], bytesRead := c }) := rfl

/-- The loop of `binary.ReadUvarint` reads back a varint of the specification:
started at iteration `i` with the groups below `2 ^ (7 * i)` accumulated in
`acc`, it returns the whole value and stops right behind the varint. -/
theorem ReadUvarintLoop_uvarint (x : Nat) : ∀ (n i acc c : Nat) (rest : Bytes),
    n + i = 10 → i ≤ 9 → acc < 2 ^ (7 * i) → acc + x * 2 ^ (7 * i) < 2 ^ 64 →
    ReadUvarintLoop n i acc (7 * i) { reader := uvarint x ++ rest, bytesRead := c } =
      ((acc + x * 2 ^ (7 * i), none),
        { reader := rest, bytesRead := c + (uvarint x).length }) := by
  induction x using Nat.strong_induction_on with
  | _ x ih =>
    intro n i acc c rest hn hi hacc hlt
    obtain ⟨m, rfl⟩ : ∃ m, n = m + 1 := ⟨n - 1, by omega⟩
    by_cases h : x < 128
    · rw [uvarint_lt x h]
      have h9 : ¬ (i = 9 ∧ x > 1) := by
        rintro ⟨rfl, hx1⟩
        have : 2 * 2 ^ (7 * 9) ≤ x * 2 ^ (7 * 9) := Nat.mul_le_mul_right _ hx1
        norm_num at this hlt
        omega
      simp only [ReadUvarintLoop, List.singleton_append, ReadByte_cons, List.length_singleton]
      rw [if_pos (by omega), if_neg h9, or_shiftLeft_of_lt acc x (7 * i) hacc,
        Nat.mod_eq_of_lt hlt]
    · have hx : 128 ≤ x := by omega
      rw [uvarint_ge x hx]
      have hP : 2 ^ (7 * (i + 1)) = 128 * 2 ^ (7 * i) := by
        rw [show 7 * (i + 1) = 7 + 7 * i by ring, pow_add]; norm_num
      have hxe : x * 2 ^ (7 * i) =
          (x % 128) * 2 ^ (7 * i) + (x / 128) * (128 * 2 ^ (7 * i)) := by
        conv_lhs => rw [← Nat.div_add_mod x 128]
        ring
      have hi8 : i ≤ 8 := by
        by_contra hcon
        have hi9 : i = 9 := by omega
        subst hi9
        have : 128 * 2 ^ (7 * 9) ≤ x * 2 ^ (7 * 9) := Nat.mul_le_mul_right _ hx
        norm_num at this hlt
        omega
      have hmod : (x % 128) * 2 ^ (7 * i) < 128 * 2 ^ (7 * i) :=
        Nat.mul_lt_mul_of_pos_right (Nat.mod_lt _ (by decide)) (Nat.pow_pos (by decide))
      have hmod2 : (x % 128) * 2 ^ (7 * i) + 2 ^ (7 * i) ≤ 128 * 2 ^ (7 * i) := by
        have : (x % 128 + 1) * 2 ^ (7 * i) ≤ 128 * 2 ^ (7 * i) :=
          Nat.mul_le_mul_right _ (by have := Nat.mod_lt x (show 128 > 0 by decide); omega)
        rw [Nat.add_mul, Nat.one_mul] at this
        exact this
      have hacc1 : acc + (x % 128) * 2 ^ (7 * i) < 2 ^ (7 * (i + 1)) := by
        rw [hP]; omega
      have hlt1 : acc + (x % 128) * 2 ^ (7 * i) < 2 ^ 64 := by
        rw [hxe] at hlt; omega
      simp only [ReadUvarintLoop, List.cons_append, ReadByte_cons, List.length_cons]
      rw [if_neg (by omega), byte_and_0x7f, or_shiftLeft_of_lt acc (x % 128) (7 * i) hacc,
        Nat.mod_eq_of_lt hlt1, show 7 * i + 7 = 7 * (i + 1) by ring,
        ih (x / 128) (by omega) m (i + 1) _ (c + 1) rest (by omega) (by omega) hacc1
          (by rw [hP, Nat.add_assoc, ← hxe]; exact hlt)]
      rw [hP, Nat.add_assoc, ← hxe]
      congr 2
      omega

/-- The function `binary.ReadUvarint` reads back the varint of every `uint64`. -/
theorem ReadUvarint_uvarint (x c : Nat) (rest : Bytes) (hx : x < 2 ^ 64) :
    ReadUvarint { reader := uvarint x ++ rest, bytesRead := c } =
      ((x, none), { reader := rest, bytesRead := c + (uvarint x).length }) := by
  have := ReadUvarintLoop_uvarint x 10 0 0 c rest rfl (by decide) (by decide) (by simpa using hx)
  simpa [ReadUvarint] using this

/-! ## The header codec -/

theorem headerBytes_length (meta klen vlen : Nat) :
    (headerBytes meta klen vlen).length = 1 + (uvarint klen).length + (uvarint vlen).length := by
  simp [headerBytes]; omega

theorem headerBytes_length_le (meta klen vlen : Nat) (hk : klen < 2 ^ 64) (hv : vlen < 2 ^ 64) :
    (headerBytes meta klen vlen).length ≤ 21 := by
  have := uvarint_length_le_ten klen hk
  have := uvarint_length_le_ten vlen hv
  rw [headerBytes_length]; omega

theorem headerBytes_length_le_max (meta klen vlen : Nat) (hk : klen < 2 ^ 32)
    (hv : vlen < 2 ^ 32) : (headerBytes meta klen vlen).length ≤ MaxHeaderSize := by
  have := uvarint_length_le_five klen hk
  have := uvarint_length_le_five vlen hv
  rw [headerBytes_length]; simp only [MaxHeaderSize]; omega

/-- On a buffer that holds the whole header, `header.encode` writes the header
bytes of the specification at the front of the buffer and returns their number. -/
theorem encode_eq (h : header) (buf : Bytes)
    (hlen : (headerBytes h.meta (h.klen % 2 ^ 64) (h.vlen % 2 ^ 64)).length ≤ buf.length) :
    h.encode buf =
      some (headerBytes h.meta (h.klen % 2 ^ 64) (h.vlen % 2 ^ 64) ++
              buf.drop (headerBytes h.meta (h.klen % 2 ^ 64) (h.vlen % 2 ^ 64)).length,
            (headerBytes h.meta (h.klen % 2 ^ 64) (h.vlen % 2 ^ 64)).length) := by
  rw [headerBytes_length] at hlen
  cases buf with
  | nil => simp at hlen
  | cons c rest =>
    simp only [List.length_cons] at hlen
    have h1 := PutUvarint_eq (h.klen % 2 ^ 64) rest (by omega)
    have h2 := PutUvarint_eq (h.vlen % 2 ^ 64) (rest.drop (uvarint (h.klen % 2 ^ 64)).length)
      (by rw [List.length_drop]; omega)
    simp only [header.encode, h1, List.drop_left, h2, List.take_left]
    simp [headerBytes, List.drop_drop]
    omega

/-- The method `header.decodeFrom` reads back the header bytes of the
specification and stops right behind them; `offset` is left as it was. -/
theorem decodeFrom_headerBytes (h0 : header) (meta klen vlen c : Nat) (rest : Bytes)
    (hk : klen < 2 ^ 32) (hv : vlen < 2 ^ 32) :
    h0.decodeFrom { reader := headerBytes meta klen vlen ++ rest, bytesRead := c } =
      (({ meta := meta, klen := klen, vlen := vlen, offset := h0.offset }, none),
        { reader := rest, bytesRead := c + (headerBytes meta klen vlen).length }) := by
  have hk64 : klen < 2 ^ 64 := lt_trans hk (by norm_num)
  have hv64 : vlen < 2 ^ 64 := lt_trans hv (by norm_num)
  simp only [header.decodeFrom, headerBytes, List.cons_append, List.append_assoc, ReadByte_cons,
    ReadUvarint_uvarint klen _ _ hk64, ReadUvarint_uvarint vlen _ _ hv64,
    Nat.mod_eq_of_lt hk, Nat.mod_eq_of_lt hv]
  simp only [List.length_cons, List.length_append]
  congr 2
  omega

/-! ## The record written by `save` -/

theorem copyAt_append (pre tail src : Bytes) (h : src.length ≤ tail.length) :
    copyAt (pre ++ tail) pre.length src = some (pre ++ (src ++ tail.drop src.length)) := by
  simp [copyAt, sliceFrom, copy, List.take_of_length_le h]

theorem sliceTo_append (pre tail : Bytes) : sliceTo (pre ++ tail) pre.length = some pre := by
  simp [sliceTo]

/-- The method `save` with `isDelete = false` never panics and returns no error:
it appends the header bytes, the key and the value to the log and maps the hash
of the key to the header of the new record. -/
theorem save_set_eq (d : Database) (key value : Bytes) (fsync : Bool) :
    d.save key value false fsync =
      Run.ret ({ d with
        f := d.f ++ (headerBytes 0 (key.length % 2 ^ 32) (value.length % 2 ^ 32) ++ (key ++ value))
        index := indexInsert d.index (d.hashFunc key)
          { meta := 0, klen := key.length % 2 ^ 32, vlen := value.length % 2 ^ 32,
            offset := d.f.length +
              (headerBytes 0 (key.length % 2 ^ 32) (value.length % 2 ^ 32)).length } }, none) := by
  have hk : key.length % 2 ^ 32 < 2 ^ 32 := Nat.mod_lt _ (by norm_num)
  have hv : value.length % 2 ^ 32 < 2 ^ 32 := Nat.mod_lt _ (by norm_num)
  have hk64 : key.length % 2 ^ 32 % 2 ^ 64 = key.length % 2 ^ 32 :=
    Nat.mod_eq_of_lt (lt_trans hk (by norm_num))
  have hv64 : value.length % 2 ^ 32 % 2 ^ 64 = value.length % 2 ^ 32 :=
    Nat.mod_eq_of_lt (lt_trans hv (by norm_num))
  have hmax := headerBytes_length_le_max 0 _ _ hk hv
  simp only [MaxHeaderSize] at hmax
  generalize hhb : headerBytes 0 (key.length % 2 ^ 32) (value.length % 2 ^ 32) = hb at hmax
  have henc := encode_eq
    { meta := 0, klen := key.length % 2 ^ 32, vlen := value.length % 2 ^ 32, offset := 0 }
    (List.replicate (MaxHeaderSize + key.length + value.length) 0)
    (by simp only [hk64, hv64, hhb, List.length_replicate, MaxHeaderSize]; omega)
  simp only [hk64, hv64, hhb] at henc
  have hc1 := copyAt_append hb
    (List.drop hb.length (List.replicate (MaxHeaderSize + key.length + value.length) 0)) key
    (by simp only [List.length_drop, List.length_replicate, MaxHeaderSize]; omega)
  have hc2 := copyAt_append (hb ++ key)
    (List.drop key.length (List.drop hb.length
      (List.replicate (MaxHeaderSize + key.length + value.length) 0))) value
    (by simp only [List.length_drop, List.length_replicate, MaxHeaderSize]; omega)
  have hs := sliceTo_append (hb ++ key ++ value)
    (List.drop value.length (List.drop key.length (List.drop hb.length
      (List.replicate (MaxHeaderSize + key.length + value.length) 0))))
  simp only [List.length_append, List.append_assoc] at hc2 hs
  simp only [Nat.reducePow, Nat.add_assoc] at henc hc1 hc2 hs ⊢
  simp only [Database.save, Bool.false_eq_true, if_false, Bool.not_false, if_true,
    Nat.reducePow, Nat.add_assoc, henc, hc1, hc2, Option.map_some', hs]

/-- The method `save` with `isDelete = true` never panics and returns no error:
it appends the header bytes with meta 1 and value length 0 and the key to the
log, writes no value byte, and removes the hash of the key from the index. -/
theorem save_delete_eq (d : Database) (key value : Bytes) (fsync : Bool) :
    d.save key value true fsync =
      Run.ret ({ d with
        f := d.f ++ (headerBytes 1 (key.length % 2 ^ 32) 0 ++ key)
        index := indexDelete d.index (d.hashFunc key) }, none) := by
  have hk : key.length % 2 ^ 32 < 2 ^ 32 := Nat.mod_lt _ (by norm_num)
  have hk64 : key.length % 2 ^ 32 % 2 ^ 64 = key.length % 2 ^ 32 :=
    Nat.mod_eq_of_lt (lt_trans hk (by norm_num))
  have hmax := headerBytes_length_le_max 1 _ 0 hk (by norm_num)
  simp only [MaxHeaderSize] at hmax
  generalize hhb : headerBytes 1 (key.length % 2 ^ 32) 0 = hb at hmax
  have henc := encode_eq
    { meta := 1, klen := key.length % 2 ^ 32, vlen := 0, offset := 0 }
    (List.replicate (MaxHeaderSize + key.length) 0)
    (by simp only [hk64, Nat.zero_mod, hhb, List.length_replicate, MaxHeaderSize]; omega)
  simp only [hk64, Nat.zero_mod, hhb] at henc
  have hc1 := copyAt_append hb
    (List.drop hb.length (List.replicate (MaxHeaderSize + key.length) 0)) key
    (by simp only [List.length_drop, List.length_replicate, MaxHeaderSize]; omega)
  have hs := sliceTo_append (hb ++ key)
    (List.drop key.length (List.drop hb.length
      (List.replicate (MaxHeaderSize + key.length) 0)))
  simp only [List.length_append, List.append_assoc] at hs
  have h01 : (0 ||| 1 : Nat) = 1 := by decide
  simp only [Nat.reducePow, Nat.add_assoc] at henc hc1 hs ⊢
  simp only [Database.save, if_true, Bool.not_true, Bool.false_eq_true, if_false, h01,
    Nat.reducePow, Nat.add_assoc, henc, hc1, hs]

/-! ## Reading through the index -/

theorem get_absent (d : Database) (key : Bytes) (h : d.index (d.hashFunc key) = none) :
    d.get key = Run.ret (Except.error Error.ErrNotExists) := by
  simp only [Database.get, h]

/-- The method `get` on a hash of the index whose record lies inside the file:
it returns the `klen` bytes at `offset` as key and the bytes after them as value. -/
theorem get_present (d : Database) (key : Bytes) (h : header)
    (hx : d.index (d.hashFunc key) = some h)
    (hn : (h.klen + h.vlen) % 2 ^ 32 ≤ (d.f.drop h.offset).length)
    (hk : h.klen ≤ (h.klen + h.vlen) % 2 ^ 32) :
    d.get key = Run.ret (Except.ok
      { value := ((d.f.drop h.offset).take ((h.klen + h.vlen) % 2 ^ 32)).drop h.klen,
        key := (d.f.drop h.offset).take h.klen }) := by
  have hl : ((d.f.drop h.offset).take ((h.klen + h.vlen) % 2 ^ 32)).length =
      (h.klen + h.vlen) % 2 ^ 32 := by
    rw [List.length_take]; omega
  simp only [Database.get, hx, io.ReadFull, if_pos hn, sliceTo, sliceFrom, hl, if_pos hk,
    List.take_take, Nat.min_eq_left hk]

/-- The method `get` on a hash of the index whose two lengths add up to `2 ^ 32`
or more: the buffer of `(klen + vlen) % 2 ^ 32` bytes is shorter than the key and
the slice expression `buf[:h.klen]` panics. -/
theorem get_panic (d : Database) (key : Bytes) (h : header)
    (hx : d.index (d.hashFunc key) = some h)
    (hn : (h.klen + h.vlen) % 2 ^ 32 ≤ (d.f.drop h.offset).length)
    (hk : (h.klen + h.vlen) % 2 ^ 32 < h.klen) :
    d.get key = Run.panic := by
  have hl : ((d.f.drop h.offset).take ((h.klen + h.vlen) % 2 ^ 32)).length =
      (h.klen + h.vlen) % 2 ^ 32 := by
    rw [List.length_take]; omega
  simp only [Database.get, hx, io.ReadFull, if_pos hn, sliceTo, sliceFrom, hl,
    if_neg (show ¬ h.klen ≤ (h.klen + h.vlen) % 2 ^ 32 by omega)]

/-- The method `get` never returns the bare error `ErrNotExists` for a hash of
the index: its other errors are wrapped ones. -/
theorem get_present_ne (d : Database) (key : Bytes) (h : header)
    (hx : d.index (d.hashFunc key) = some h) :
    d.get key ≠ Run.ret (Except.error Error.ErrNotExists) := by
  simp only [Database.get, hx]
  split
  · split <;> simp
  · split <;> simp

theorem index_after_set (d : Database) (key value : Bytes) (fsync : Bool) (d1 : Database)
    (err : Option Error) (h : d.save key value false fsync = Run.ret (d1, err)) :
    err = none ∧ d1.hashFunc = d.hashFunc ∧
    d1.f = d.f ++ (headerBytes 0 (key.length % 2 ^ 32) (value.length % 2 ^ 32) ++ (key ++ value)) ∧
    d1.index = indexInsert d.index (d.hashFunc key)
      { meta := 0, klen := key.length % 2 ^ 32, vlen := value.length % 2 ^ 32,
        offset := d.f.length +
          (headerBytes 0 (key.length % 2 ^ 32) (value.length % 2 ^ 32)).length } := by
  rw [save_set_eq] at h
  cases h
  exact ⟨rfl, rfl, rfl, rfl⟩

/-- After `Set(key, value)` with `len(key) + len(value) < 2 ^ 32`, `get(key)`
returns the entry made of `key` and `value`. -/
theorem get_after_set (d : Database) (key value : Bytes)
    (hlen : key.length + value.length < 2 ^ 32) :
    (Run.state d (d.Set key value)).get key = Run.ret (Except.ok { value := value, key := key }) := by
  have hk : key.length % 2 ^ 32 = key.length := Nat.mod_eq_of_lt (by omega)
  have hv : value.length % 2 ^ 32 = value.length := Nat.mod_eq_of_lt (by omega)
  have hs : (key.length + value.length) % 2 ^ 32 = key.length + value.length :=
    Nat.mod_eq_of_lt hlen
  have hs' : (key.length + value.length) % 4294967296 = key.length + value.length := hs
  rw [Database.Set, save_set_eq]
  simp only [Run.state, hk, hv]
  rw [get_present _ key
    { meta := 0, klen := key.length, vlen := value.length,
      offset := d.f.length + (headerBytes 0 key.length value.length).length }
    (by simp [indexInsert])
    (by simp [List.drop_append, hs'])
    (by simp only [hs]; omega)]
  have ht : List.take (key.length + value.length) (key ++ value) = key ++ value :=
    List.take_of_length_le (by simp)
  simp [List.drop_append, hs', ht]

/-- After `Set(key, value)` with both lengths below `2 ^ 32` and their sum not,
`get(key)` panics: the `uint32` sum `h.klen + h.vlen` wraps around. -/
theorem get_after_set_overflow (d : Database) (key value : Bytes)
    (hk : key.length < 2 ^ 32) (hv : value.length < 2 ^ 32)
    (hlen : 2 ^ 32 ≤ key.length + value.length) :
    (Run.state d (d.Set key value)).get key = Run.panic := by
  have hk1 : key.length % 2 ^ 32 = key.length := Nat.mod_eq_of_lt hk
  have hv1 : value.length % 2 ^ 32 = value.length := Nat.mod_eq_of_lt hv
  have hs : (key.length + value.length) % 2 ^ 32 = key.length + value.length - 2 ^ 32 := by
    omega
  rw [Database.Set, save_set_eq]
  simp only [Run.state, hk1, hv1]
  apply get_panic _ key
    { meta := 0, klen := key.length, vlen := value.length,
      offset := d.f.length + (headerBytes 0 key.length value.length).length }
  · simp [indexInsert]
  · simp only [hs]
    simp [List.drop_append]
  · simp only [hs]; omega

theorem Set_ret (d : Database) (key value : Bytes) :
    d.Set key value = Run.ret (Run.state d (d.Set key value), none) := by
  rw [Database.Set, save_set_eq]; rfl

theorem state_after_Set (d : Database) (key value : Bytes) :
    Run.state d (d.Set key value) =
      { d with
        f := d.f ++ (headerBytes 0 (key.length % 2 ^ 32) (value.length % 2 ^ 32) ++ (key ++ value))
        index := indexInsert d.index (d.hashFunc key)
          { meta := 0, klen := key.length % 2 ^ 32, vlen := value.length % 2 ^ 32,
            offset := d.f.length +
              (headerBytes 0 (key.length % 2 ^ 32) (value.length % 2 ^ 32)).length } } := by
  rw [Database.Set, save_set_eq]; rfl

theorem Get_after_set (d : Database) (key value : Bytes)
    (hlen : key.length + value.length < 2 ^ 32) :
    (Run.state d (d.Set key value)).Get key = Run.ret (some value, none) := by
  simp only [Database.Get, get_after_set d key value hlen]

theorem Delete_after_set (d : Database) (key value : Bytes)
    (hlen : key.length + value.length < 2 ^ 32) :
    (Run.state d (d.Set key value)).Delete key =
      Run.ret ({ Run.state d (d.Set key value) with
        f := (Run.state d (d.Set key value)).f ++ (headerBytes 1 key.length 0 ++ key)
        index := indexDelete (Run.state d (d.Set key value)).index (d.hashFunc key) }, none) := by
  have hk : key.length % 2 ^ 32 = key.length := Nat.mod_eq_of_lt (by omega)
  simp only [Database.Delete, get_after_set d key value hlen, save_delete_eq, hk]
  rw [Database.Set, save_set_eq]
  rfl

theorem Get_after_set_overflow (d : Database) (key value : Bytes)
    (hk : key.length < 2 ^ 32) (hv : value.length < 2 ^ 32)
    (hlen : 2 ^ 32 ≤ key.length + value.length) :
    (Run.state d (d.Set key value)).Get key = Run.panic := by
  simp only [Database.Get, get_after_set_overflow d key value hk hv hlen]

theorem Delete_after_set_overflow (d : Database) (key value : Bytes)
    (hk : key.length < 2 ^ 32) (hv : value.length < 2 ^ 32)
    (hlen : 2 ^ 32 ≤ key.length + value.length) :
    (Run.state d (d.Set key value)).Delete key = Run.panic := by
  simp only [Database.Delete, get_after_set_overflow d key value hk hv hlen]

/-- A key of `2 ^ 32 - 1` bytes. -/
theorem length_replicate_max :
    (List.replicate 4294967295 0 : Bytes).length = 4294967295 :=
  List.length_replicate _ _

theorem length_replicate_max_lt : (List.replicate 4294967295 0 : Bytes).length < 2 ^ 32 := by
  rw [length_replicate_max]; norm_num

theorem length_replicate_max_sum :
    2 ^ 32 ≤ (List.replicate 4294967295 0 : Bytes).length + [7].length := by
  rw [length_replicate_max, List.length_singleton]; norm_num

theorem length_singleton_lt (b : Nat) : ([b] : Bytes).length < 2 ^ 32 := by
  rw [List.length_singleton]; norm_num

/-! ## Readers -/

theorem advancedBy_refl (r : readerCount) : r.advancedBy r 0 := by
  simp [readerCount.advancedBy]

theorem advancedBy_trans (r r1 r2 : readerCount) (k j : Nat)
    (h1 : r.advancedBy r1 k) (h2 : r1.advancedBy r2 j) : r.advancedBy r2 (k + j) := by
  obtain ⟨a1, a2, a3⟩ := h1
  obtain ⟨b1, b2, b3⟩ := h2
  rw [a2, List.length_drop] at b1
  refine ⟨by omega, ?_, by omega⟩
  rw [b2, a2, List.drop_drop, Nat.add_comm]

theorem ReadByte_advancedBy (r : readerCount) :
    ∃ k, r.advancedBy r.ReadByte.2 k ∧ (r.ReadByte.1.2 = none → k = 1) := by
  obtain ⟨reader, c⟩ := r
  cases reader with
  | nil => exact ⟨0, advancedBy_refl _, by simp [readerCount.ReadByte]⟩
  | cons b rest =>
    refine ⟨1, ?_, fun _ => rfl⟩
    simp [readerCount.ReadByte, readerCount.advancedBy]

theorem ReadUvarintLoop_advancedBy : ∀ (n i x s : Nat) (r : readerCount),
    ∃ k, r.advancedBy (ReadUvarintLoop n i x s r).2 k ∧
      ((ReadUvarintLoop n i x s r).1.2 = none → 1 ≤ k) := by
  intro n
  induction n with
  | zero =>
    intro i x s r
    exact ⟨0, advancedBy_refl _, by simp [ReadUvarintLoop]⟩
  | succ n ih =>
    intro i x s r
    obtain ⟨reader, c⟩ := r
    cases reader with
    | nil =>
      refine ⟨0, ?_, ?_⟩
      · simp only [ReadUvarintLoop, ReadByte_nil]
        exact advancedBy_refl _
      · simp only [ReadUvarintLoop, ReadByte_nil]
        intro h
        cases h
    | cons b rest =>
      have h1 : readerCount.advancedBy { reader := b :: rest, bytesRead := c }
          { reader := rest, bytesRead := c + 1 } 1 := by
        simp [readerCount.advancedBy]
      simp only [ReadUvarintLoop, ReadByte_cons]
      by_cases hb : b < 0x80
      · rw [if_pos hb]
        by_cases h9 : i = 9 ∧ b > 1
        · rw [if_pos h9]
          exact ⟨1, h1, fun _ => le_refl _⟩
        · rw [if_neg h9]
          exact ⟨1, h1, fun _ => le_refl _⟩
      · rw [if_neg hb]
        obtain ⟨k, hk, _⟩ := ih (i + 1) ((x ||| ((b &&& 0x7f) <<< s)) % 2 ^ 64) (s + 7)
          { reader := rest, bytesRead := c + 1 }
        exact ⟨1 + k, advancedBy_trans _ _ _ _ _ h1 hk, fun _ => by omega⟩

theorem ReadUvarint_advancedBy (r : readerCount) :
    ∃ k, r.advancedBy (ReadUvarint r).2 k ∧ ((ReadUvarint r).1.2 = none → 1 ≤ k) :=
  ReadUvarintLoop_advancedBy 10 0 0 0 r

/-- The method `header.decodeFrom` only moves the reader forward; when it
succeeds it has taken at least three bytes, its lengths fit in 32 bits and
`offset` is as before. -/
theorem decodeFrom_advancedBy (h : header) (r : readerCount) :
    ∃ k, r.advancedBy (h.decodeFrom r).2 k ∧
      ((h.decodeFrom r).1.2 = none →
        3 ≤ k ∧ (h.decodeFrom r).1.1.klen < 2 ^ 32 ∧ (h.decodeFrom r).1.1.vlen < 2 ^ 32) := by
  obtain ⟨k0, a0, b0⟩ := ReadByte_advancedBy r
  obtain ⟨k1, a1, b1⟩ := ReadUvarint_advancedBy r.ReadByte.2
  obtain ⟨k2, a2, b2⟩ := ReadUvarint_advancedBy (ReadUvarint r.ReadByte.2).2
  simp only [header.decodeFrom]
  rcases hrb : r.ReadByte with ⟨⟨b, e0⟩, r1⟩
  rw [hrb] at a0 b0 a1 b1 a2 b2
  cases e0 with
  | some err => exact ⟨k0, a0, by simp⟩
  | none =>
    simp only
    rcases hru : ReadUvarint r1 with ⟨⟨x1, e1⟩, r2⟩
    rw [hru] at a1 b1 a2 b2
    cases e1 with
    | some err => exact ⟨k0 + k1, advancedBy_trans _ _ _ _ _ a0 a1, by simp⟩
    | none =>
      simp only
      rcases hrv : ReadUvarint r2 with ⟨⟨x2, e2⟩, r3⟩
      rw [hrv] at a2 b2
      cases e2 with
      | some err =>
        exact ⟨k0 + k1 + k2, advancedBy_trans _ _ _ _ _ (advancedBy_trans _ _ _ _ _ a0 a1) a2,
          by simp⟩
      | none =>
        refine ⟨k0 + k1 + k2,
          advancedBy_trans _ _ _ _ _ (advancedBy_trans _ _ _ _ _ a0 a1) a2, fun _ => ?_⟩
        have := b0 rfl
        have := b1 rfl
        have := b2 rfl
        refine ⟨by omega, Nat.mod_lt _ (by norm_num), Nat.mod_lt _ (by norm_num)⟩

theorem ReadFull_ok (r : readerCount) (n : Nat) (h : n ≤ r.reader.length) :
    r.ReadFull n =
      ((r.reader.take n, n, none),
        { reader := r.reader.drop n, bytesRead := r.bytesRead + n }) := by
  simp only [readerCount.ReadFull, io.ReadFull, if_pos h]

theorem ReadFull_short (r : readerCount) (n : Nat) (h : ¬ n ≤ r.reader.length) :
    ∃ buf m, r.ReadFull n =
      ((buf, m, some (if r.reader.length = 0 then Error.EOF else Error.ErrUnexpectedEOF)),
        { reader := [], bytesRead := r.bytesRead + r.reader.length }) := by
  by_cases h0 : r.reader.length = 0
  · refine ⟨List.replicate n 0, 0, ?_⟩
    simp only [readerCount.ReadFull, io.ReadFull, if_neg h, if_pos h0]
    rw [h0]
  · refine ⟨r.reader ++ List.replicate (n - r.reader.length) 0, r.reader.length, ?_⟩
    simp only [readerCount.ReadFull, io.ReadFull, if_neg h, if_neg h0]

theorem CopyNDiscard_ok (r : readerCount) (n : Nat) (h : n ≤ r.reader.length) :
    r.CopyNDiscard n =
      ((n, none), { reader := r.reader.drop n, bytesRead := r.bytesRead + n }) := by
  simp only [readerCount.CopyNDiscard, if_pos h]

theorem CopyNDiscard_short (r : readerCount) (n : Nat) (h : ¬ n ≤ r.reader.length) :
    r.CopyNDiscard n =
      ((r.reader.length, some Error.EOF),
        { reader := [], bytesRead := r.bytesRead + r.reader.length }) := by
  simp only [readerCount.CopyNDiscard, if_neg h]

/-- The function `decodeEntry` without the value on a stream that holds the
whole record: it returns the next `klen` bytes as key, no value, and the count
`klen + vlen`, and the reader has moved by `klen + vlen` bytes. -/
theorem decodeEntry_false_eq (r : readerCount) (h : header)
    (hlen : h.klen + h.vlen ≤ r.reader.length) :
    decodeEntry r h false =
      ((Except.ok { value := [], key := r.reader.take h.klen }, h.klen + h.vlen),
        { reader := r.reader.drop (h.klen + h.vlen),
          bytesRead := r.bytesRead + (h.klen + h.vlen) }) := by
  have h1 := ReadFull_ok r h.klen (by omega)
  have h2 := CopyNDiscard_ok
    { reader := r.reader.drop h.klen, bytesRead := r.bytesRead + h.klen } h.vlen
    (by simp only [List.length_drop]; omega)
  simp only [decodeEntry, h1, Bool.not_false, Bool.or_true, if_true, h2, List.drop_drop,
    Nat.add_assoc]

/-- The function `decodeEntry` without the value on a stream that ends inside the
record: it returns an error. -/
theorem decodeEntry_false_short (r : readerCount) (h : header)
    (hlen : ¬ h.klen + h.vlen ≤ r.reader.length) :
    ∃ err, (decodeEntry r h false).1.1 = Except.error err := by
  by_cases hk : h.klen ≤ r.reader.length
  · have h1 := ReadFull_ok r h.klen hk
    have h2 := CopyNDiscard_short
      { reader := r.reader.drop h.klen, bytesRead := r.bytesRead + h.klen } h.vlen
      (by simp only [List.length_drop]; omega)
    refine ⟨Error.EOF, ?_⟩
    simp only [decodeEntry, h1, Bool.not_false, Bool.or_true, if_true, h2]
  · obtain ⟨buf, m, h1⟩ := ReadFull_short r h.klen hk
    refine ⟨if r.reader.length = 0 then Error.EOF else Error.ErrUnexpectedEOF, ?_⟩
    simp only [decodeEntry, h1]

/-- The function `decodeEntry` without the value: when it succeeds, the key is
the next `klen` bytes and the reader has moved by `klen + vlen` bytes. -/
theorem decodeEntry_false_ok (r r1 : readerCount) (h : header) (e : entry) (n : Nat)
    (hd : decodeEntry r h false = ((Except.ok e, n), r1)) :
    r.advancedBy r1 (h.klen + h.vlen) ∧ e.key = r.reader.take h.klen := by
  by_cases hlen : h.klen + h.vlen ≤ r.reader.length
  · rw [decodeEntry_false_eq r h hlen] at hd
    simp only [Prod.mk.injEq, Except.ok.injEq] at hd
    obtain ⟨⟨he, _⟩, hr⟩ := hd
    subst hr
    subst he
    exact ⟨⟨hlen, rfl, rfl⟩, rfl⟩
  · obtain ⟨err, h1⟩ := decodeEntry_false_short r h hlen
    rw [hd] at h1
    cases h1

/-! ## The index rebuild -/

theorem buildIndexLoop_succ (hashFunc : Bytes → Nat) (fuel : Nat) (h : header)
    (rc : readerCount) (index : Nat → Option header) :
    buildIndexLoop hashFunc (fuel + 1) h rc index =
      match h.decodeFrom rc with
      | ((_, some err), _) =>
        if err = Error.EOF then some (index, none) else some (index, some err)
      | ((h1, none), rc1) =>
        match decodeEntry rc1 h1 false with
        | ((Except.error err, _), _) =>
          if err = Error.EOF then some (index, some (Error.wrap Context.expectedEntry err))
          else some (index, some err)
        | ((Except.ok e, _), rc2) =>
          buildIndexLoop hashFunc fuel { h1 with offset := rc1.bytesRead } rc2
            (indexInsert index (hashFunc e.key) { h1 with offset := rc1.bytesRead }) := rfl

theorem advancedBy_of_log (log : Bytes) (r r1 : readerCount) (k : Nat)
    (hr : r.reader = log.drop r.bytesRead) (hb : r.bytesRead ≤ log.length)
    (ha : r.advancedBy r1 k) :
    r1.reader = log.drop r1.bytesRead ∧ r1.bytesRead ≤ log.length ∧
      r1.bytesRead = r.bytesRead + k := by
  obtain ⟨a1, a2, a3⟩ := ha
  rw [hr, List.length_drop] at a1
  refine ⟨?_, by omega, a3⟩
  rw [a2, hr, List.drop_drop, a3, Nat.add_comm]

theorem indexValid_insert (hashFunc : Bytes → Nat) (log : Bytes) (index : Nat → Option header)
    (h : header) (hv : indexValid hashFunc log index)
    (hk : h.klen < 2 ^ 32) (hvl : h.vlen < 2 ^ 32) (hlen : h.offset + h.klen + h.vlen ≤ log.length) :
    indexValid hashFunc log
      (indexInsert index (hashFunc ((log.drop h.offset).take h.klen)) h) := by
  intro x h1 hx
  simp only [indexInsert] at hx
  by_cases hxe : x = hashFunc ((log.drop h.offset).take h.klen)
  · rw [if_pos hxe] at hx
    cases hx
    exact ⟨hk, hvl, hlen, hxe.symm⟩
  · rw [if_neg hxe] at hx
    exact hv x h1 hx

theorem indexValid_delete (hashFunc : Bytes → Nat) (log : Bytes) (index : Nat → Option header)
    (y : Nat) (hv : indexValid hashFunc log index) :
    indexValid hashFunc log (indexDelete index y) := by
  intro x h1 hx
  simp only [indexDelete] at hx
  by_cases hxe : x = y
  · rw [if_pos hxe] at hx; cases hx
  · rw [if_neg hxe] at hx
    exact hv x h1 hx

theorem indexValid_append (hashFunc : Bytes → Nat) (log more : Bytes)
    (index : Nat → Option header) (hv : indexValid hashFunc log index) :
    indexValid hashFunc (log ++ more) index := by
  intro x h hx
  obtain ⟨a, b, c, e⟩ := hv x h hx
  refine ⟨a, b, by rw [List.length_append]; omega, ?_⟩
  rw [List.drop_append_of_le_length (by omega),
    List.take_append_of_le_length (by rw [List.length_drop]; omega)]
  exact e

theorem indexValid_empty (hashFunc : Bytes → Nat) (log : Bytes) :
    indexValid hashFunc log (fun _ => none) := by
  intro x h hx
  cases hx

/-- The index that the rebuild loop returns is valid for the log it scans. -/
theorem buildIndexLoop_valid (hashFunc : Bytes → Nat) (log : Bytes) :
    ∀ (fuel : Nat) (h : header) (rc : readerCount) (index res : Nat → Option header)
      (err : Option Error),
      rc.reader = log.drop rc.bytesRead → rc.bytesRead ≤ log.length →
      indexValid hashFunc log index →
      buildIndexLoop hashFunc fuel h rc index = some (res, err) →
      indexValid hashFunc log res := by
  intro fuel
  induction fuel with
  | zero =>
    intro h rc index res err _ _ _ hb
    simp [buildIndexLoop] at hb
  | succ fuel ih =>
    intro h rc index res err hr hbl hv hb
    rw [buildIndexLoop_succ] at hb
    obtain ⟨k, ha, hok⟩ := decodeFrom_advancedBy h rc
    rcases hdf : h.decodeFrom rc with ⟨⟨h1, e1⟩, rc1⟩
    rw [hdf] at hb ha hok
    cases e1 with
    | some e =>
      simp only at hb
      split at hb <;> (cases hb; exact hv)
    | none =>
      simp only at hb
      obtain ⟨_, hk1, hv1⟩ := hok rfl
      obtain ⟨hr1, hbl1, _⟩ := advancedBy_of_log log rc rc1 k hr hbl ha
      rcases hde : decodeEntry rc1 h1 false with ⟨⟨res1, n⟩, rc2⟩
      rw [hde] at hb
      cases res1 with
      | error e =>
        simp only at hb
        split at hb <;> (cases hb; exact hv)
      | ok e =>
        simp only at hb
        obtain ⟨ha2, hkey⟩ := decodeEntry_false_ok rc1 rc2 h1 e n hde
        obtain ⟨hr2, hbl2, hb2⟩ := advancedBy_of_log log rc1 rc2 _ hr1 hbl1 ha2
        refine ih _ rc2 _ res err hr2 hbl2 ?_ hb
        rw [hkey, hr1]
        exact indexValid_insert hashFunc log index { h1 with offset := rc1.bytesRead } hv hk1 hv1
          (by simp only; omega)

/-- The bound on the iterations of the rebuild loop is never reached when it is
larger than the number of bytes left to read. -/
theorem buildIndexLoop_isSome (hashFunc : Bytes → Nat) :
    ∀ (fuel : Nat) (h : header) (rc : readerCount) (index : Nat → Option header),
      rc.reader.length < fuel → (buildIndexLoop hashFunc fuel h rc index).isSome := by
  intro fuel
  induction fuel with
  | zero =>
    intro h rc index hlt
    omega
  | succ fuel ih =>
    intro h rc index hlt
    rw [buildIndexLoop_succ]
    obtain ⟨k, ha, hok⟩ := decodeFrom_advancedBy h rc
    rcases hdf : h.decodeFrom rc with ⟨⟨h1, e1⟩, rc1⟩
    rw [hdf] at ha hok
    cases e1 with
    | some e =>
      simp only
      split <;> rfl
    | none =>
      simp only
      obtain ⟨hk3, _, _⟩ := hok rfl
      rcases hde : decodeEntry rc1 h1 false with ⟨⟨res1, n⟩, rc2⟩
      cases res1 with
      | error e =>
        simp only
        split <;> rfl
      | ok e =>
        simp only
        obtain ⟨ha2, _⟩ := decodeEntry_false_ok rc1 rc2 h1 e n hde
        apply ih
        obtain ⟨a1, a2, _⟩ := ha
        obtain ⟨b1, b2, _⟩ := ha2
        rw [b2, List.length_drop, a2, List.length_drop]
        omega

/-- The function `Open` returns on every log: the scan ends within its bound. -/
theorem Open_isSome (hashFunc : Bytes → Nat) (log : Bytes) : (Open hashFunc log).isSome := by
  have h := buildIndexLoop_isSome hashFunc (log.length + 1)
    { meta := 0, klen := 0, vlen := 0, offset := 0 } { reader := log, bytesRead := 0 }
    (fun _ => none) (by simp)
  simp only [Open, Database.buildIndex]
  rcases hb : buildIndexLoop hashFunc (log.length + 1)
    { meta := 0, klen := 0, vlen := 0, offset := 0 } { reader := log, bytesRead := 0 }
    (fun _ => none) with _ | ⟨res, err⟩
  · rw [hb] at h; cases h
  · cases err <;> rfl

/-- The store that `Open` returns holds the log, the hash function, and an index
that is valid for the log. -/
theorem Open_valid (hashFunc : Bytes → Nat) (log : Bytes) (d : Database)
    (h : Open hashFunc log = some (Except.ok d)) :
    d.f = log ∧ d.hashFunc = hashFunc ∧ indexValid hashFunc log d.index := by
  simp only [Open, Database.buildIndex] at h
  rcases hb : buildIndexLoop hashFunc (log.length + 1)
    { meta := 0, klen := 0, vlen := 0, offset := 0 } { reader := log, bytesRead := 0 }
    (fun _ => none) with _ | ⟨res, err⟩
  · rw [hb] at h; cases h
  · rw [hb] at h
    cases err with
    | some e => simp at h
    | none =>
      simp only [Option.some.injEq, Except.ok.injEq] at h
      subst h
      refine ⟨rfl, rfl, ?_⟩
      exact buildIndexLoop_valid hashFunc log _ _ _ _ res none rfl (Nat.zero_le _)
        (indexValid_empty hashFunc log) hb

/-! ## The invariant of the store -/

/-- What a successful `get` tells: the hash is in the index, the record was read
whole and the key and the value are its two parts. -/
theorem get_ok_inv (d : Database) (key : Bytes) (e : entry)
    (hg : d.get key = Run.ret (Except.ok e)) :
    ∃ h, d.index (d.hashFunc key) = some h ∧
      (h.klen + h.vlen) % 2 ^ 32 ≤ (d.f.drop h.offset).length ∧
      h.klen ≤ (h.klen + h.vlen) % 2 ^ 32 ∧
      e = { value := ((d.f.drop h.offset).take ((h.klen + h.vlen) % 2 ^ 32)).drop h.klen,
            key := (d.f.drop h.offset).take h.klen } := by
  cases hx : d.index (d.hashFunc key) with
  | none =>
    rw [get_absent d key hx] at hg
    cases hg
  | some h =>
    refine ⟨h, rfl, ?_⟩
    by_cases hn : (h.klen + h.vlen) % 2 ^ 32 ≤ (d.f.drop h.offset).length
    · by_cases hk : h.klen ≤ (h.klen + h.vlen) % 2 ^ 32
      · rw [get_present d key h hx hn hk] at hg
        simp only [Run.ret.injEq, Except.ok.injEq] at hg
        exact ⟨hn, hk, hg.symm⟩
      · rw [get_panic d key h hx hn (by omega)] at hg
        cases hg
    · exfalso
      by_cases h0 : (d.f.drop h.offset).length = 0
      · simp only [Database.get, hx, io.ReadFull, if_neg hn, if_pos h0] at hg
        simp at hg
      · simp only [Database.get, hx, io.ReadFull, if_neg hn, if_neg h0] at hg
        simp at hg

/-- A call of `Delete` either leaves the store as it was, or it appends a
tombstone record and removes from the index the hash of the key bytes stored at
the header that the index holds for the key. -/
theorem Delete_cases (d : Database) (key : Bytes) :
    Run.state d (d.Delete key) = d ∨
    ∃ h, d.index (d.hashFunc key) = some h ∧
      (h.klen + h.vlen) % 2 ^ 32 ≤ (d.f.drop h.offset).length ∧
      h.klen ≤ (h.klen + h.vlen) % 2 ^ 32 ∧
      d.Delete key = Run.ret ({ d with
        f := d.f ++ (headerBytes 1 h.klen 0 ++ (d.f.drop h.offset).take h.klen)
        index := indexDelete d.index (d.hashFunc ((d.f.drop h.offset).take h.klen)) }, none) := by
  rcases hg : d.get key with ⟨res⟩ | _
  · cases res with
    | error err =>
      left
      simp only [Database.Delete, hg, Run.state]
    | ok e =>
      right
      obtain ⟨h, hx, hn, hk, he⟩ := get_ok_inv d key e hg
      refine ⟨h, hx, hn, hk, ?_⟩
      have hl : ((d.f.drop h.offset).take h.klen).length = h.klen := by
        rw [List.length_take]; omega
      have hlt : h.klen < 2 ^ 32 :=
        lt_of_le_of_lt hk (Nat.mod_lt _ (by norm_num))
      simp only [Database.Delete, hg, save_delete_eq, he, hl, Nat.mod_eq_of_lt hlt]
  · left
    simp only [Database.Delete, hg, Run.state]

/-- A call of `Set` or `Delete` within the input domain keeps the invariant and
the hash function, and the log before the call is a prefix of the log after it. -/
theorem call_valid (d : Database) (c : Call) (hv : d.valid) (hc : c.isSetOrDelete)
    (hd : ∀ k ∈ c.keys, k.length < 2 ^ 32) :
    (d.call c).valid ∧ (d.call c).hashFunc = d.hashFunc ∧ ∃ more, (d.call c).f = d.f ++ more := by
  cases c with
  | set key value =>
    have hk : key.length < 2 ^ 32 := hd key (by simp [Call.keys])
    have hk1 : key.length % 2 ^ 32 = key.length := Nat.mod_eq_of_lt hk
    have hvl : value.length % 2 ^ 32 ≤ value.length := Nat.mod_le _ _
    simp only [Database.call, Database.Set, save_set_eq, Run.state, Database.valid, hk1]
    refine ⟨?_, trivial, _, rfl⟩
    have h1 := indexValid_insert d.hashFunc
      (d.f ++ (headerBytes 0 key.length (value.length % 2 ^ 32) ++ (key ++ value))) d.index
      { meta := 0, klen := key.length, vlen := value.length % 2 ^ 32,
        offset := d.f.length + (headerBytes 0 key.length (value.length % 2 ^ 32)).length }
      (indexValid_append _ _ _ _ hv) hk (Nat.mod_lt _ (by norm_num))
      (by simp only [List.length_append]; omega)
    simpa [List.drop_append] using h1
  | delete key =>
    simp only [Database.call]
    rcases Delete_cases d key with h | ⟨h, hx, hn, hk, he⟩
    · rw [h]
      exact ⟨hv, rfl, [], by simp⟩
    · rw [he]
      simp only [Run.state, Database.valid]
      exact ⟨indexValid_delete _ _ _ _ (indexValid_append _ _ _ _ hv), trivial, _, rfl⟩
  | get key => exact absurd hc (by simp [Call.isSetOrDelete])
  | batchSet keys values => exact absurd hc (by simp [Call.isSetOrDelete])

/-- A call of `Set` or `Delete` on keys with another hash leaves the entry of the
index under the hash `x` as it is. -/
theorem call_index_other (d : Database) (c : Call) (x : Nat) (hv : d.valid)
    (hc : c.isSetOrDelete) (hne : ∀ k ∈ c.keys, d.hashFunc k ≠ x) :
    (d.call c).index x = d.index x := by
  cases c with
  | set key value =>
    have hk : d.hashFunc key ≠ x := hne key (by simp [Call.keys])
    simp only [Database.call, Database.Set, save_set_eq, Run.state, indexInsert]
    rw [if_neg (fun h => hk h.symm)]
  | delete key =>
    have hk : d.hashFunc key ≠ x := hne key (by simp [Call.keys])
    simp only [Database.call]
    rcases Delete_cases d key with h | ⟨h, hx, hn, hkl, he⟩
    · rw [h]
    · rw [he]
      simp only [Run.state, indexDelete]
      have hh := (hv _ h hx).2.2.2
      rw [hh, if_neg (fun h => hk h.symm)]
  | get key => exact absurd hc (by simp [Call.isSetOrDelete])
  | batchSet keys values => exact absurd hc (by simp [Call.isSetOrDelete])

/-- Every reachable store satisfies the invariant. -/
theorem Reachable_valid (d : Database) (hr : Reachable d) : d.valid := by
  induction hr with
  | opened hashFunc log d h =>
    obtain ⟨hf, hh, hv⟩ := Open_valid hashFunc log d h
    simp only [Database.valid, hf, hh]
    exact hv
  | step d c _ hc hd ih => exact (call_valid d c ih hc hd.1).1

/-- The method `get` reads the same entry after the log has grown: a header of
the index whose record lies inside the old log. -/
theorem get_append (d : Database) (key : Bytes) (h : header) (more : Bytes)
    (index : Nat → Option header)
    (hx : index (d.hashFunc key) = some h)
    (hn : h.offset + (h.klen + h.vlen) % 2 ^ 32 ≤ d.f.length)
    (hk : h.klen ≤ (h.klen + h.vlen) % 2 ^ 32) :
    Database.get { d with f := d.f ++ more, index := index } key = Run.ret (Except.ok
      { value := ((d.f.drop h.offset).take ((h.klen + h.vlen) % 2 ^ 32)).drop h.klen,
        key := (d.f.drop h.offset).take h.klen }) := by
  rw [get_present { d with f := d.f ++ more, index := index } key h hx
    (by simp only [List.length_drop, List.length_append]; omega) hk]
  simp only
  rw [List.drop_append_of_le_length (by omega),
    List.take_append_of_le_length (by rw [List.length_drop]; omega),
    List.take_append_of_le_length (by rw [List.length_drop]; omega)]

/-- Calls of `Set` and `Delete` on keys of the input domain with another hash do
not change what `get(key)` returns, when the record of `key` lies inside the log. -/
theorem run_get_stable (key : Bytes) (h : header) : ∀ (calls : List Call) (d : Database),
    d.valid → d.index (d.hashFunc key) = some h →
    h.offset + (h.klen + h.vlen) % 2 ^ 32 ≤ d.f.length →
    h.klen ≤ (h.klen + h.vlen) % 2 ^ 32 →
    (∀ c ∈ calls, c.isSetOrDelete ∧ (∀ k ∈ c.keys, k.length < 2 ^ 32) ∧
      ∀ k ∈ c.keys, d.hashFunc k ≠ d.hashFunc key) →
    (d.run calls).get key = d.get key := by
  intro calls
  induction calls with
  | nil => intro d _ _ _ _ _; rfl
  | cons c cs ih =>
    intro d hv hx hn hk hcs
    obtain ⟨hc1, hc2, hc3⟩ := hcs c (List.mem_cons_self _ _)
    obtain ⟨hv1, hh1, more, hf1⟩ := call_valid d c hv hc1 hc2
    have hx1 : (d.call c).index ((d.call c).hashFunc key) = some h := by
      rw [hh1, call_index_other d c _ hv hc1 hc3]; exact hx
    have hstep : (d.call c).get key = d.get key := by
      have he : d.call c = { d with f := d.f ++ more, index := (d.call c).index } := by
        rcases hdc : d.call c with ⟨f1, hf, idx⟩
        rw [hdc] at hh1 hf1
        simp only at hh1 hf1
        rw [hh1, hf1]
      rw [he, get_append d key h more _ (by rw [← hh1]; exact hx1) hn hk,
        get_present d key h hx (by rw [List.length_drop]; omega) hk]
    simp only [Database.run]
    rw [ih (d.call c) hv1 hx1 (by rw [hf1, List.length_append]; omega) hk
      (fun c1 hc1 => by
        obtain ⟨a, b, e⟩ := hcs c1 (List.mem_cons_of_mem _ hc1)
        exact ⟨a, b, by rw [hh1]; exact e⟩), hstep]

/-! ## The rebuild of a log that `Set` wrote -/

/-- One iteration of the rebuild loop over a whole record: it maps the hash of
the key to the header of the record, with the position of the first key byte as
offset, and goes on behind the record. -/
theorem buildIndexLoop_record (hashFunc : Bytes → Nat) (fuel : Nat) (h : header) (c : Nat)
    (index : Nat → Option header) (meta : Nat) (k v rest : Bytes)
    (hk : k.length < 2 ^ 32) (hv : v.length < 2 ^ 32) :
    buildIndexLoop hashFunc (fuel + 1) h
        { reader := headerBytes meta k.length v.length ++ (k ++ v) ++ rest, bytesRead := c } index =
      buildIndexLoop hashFunc fuel
        { meta := meta, klen := k.length, vlen := v.length,
          offset := c + (headerBytes meta k.length v.length).length }
        { reader := rest,
          bytesRead := c + (headerBytes meta k.length v.length).length + (k.length + v.length) }
        (indexInsert index (hashFunc k)
          { meta := meta, klen := k.length, vlen := v.length,
            offset := c + (headerBytes meta k.length v.length).length }) := by
  have hd := decodeFrom_headerBytes h meta k.length v.length c ((k ++ v) ++ rest) hk hv
  have he := decodeEntry_false_eq
    { reader := (k ++ v) ++ rest,
      bytesRead := c + (headerBytes meta k.length v.length).length }
    { meta := meta, klen := k.length, vlen := v.length, offset := h.offset }
    (by simp only [List.length_append]; omega)
  have ht : List.take k.length (k ++ v ++ rest) = k := by
    rw [List.append_assoc, List.take_left]
  have hdr : List.drop (k.length + v.length) (k ++ v ++ rest) = rest := by
    rw [← List.length_append, List.drop_left]
  simp only [ht, hdr] at he
  rw [buildIndexLoop_succ, List.append_assoc, hd]
  simp only [he]

theorem buildIndexLoop_nil (hashFunc : Bytes → Nat) (fuel : Nat) (h : header) (c : Nat)
    (index : Nat → Option header) :
    buildIndexLoop hashFunc (fuel + 1) h { reader := [], bytesRead := c } index =
      some (index, none) := rfl

/-- Calls of `Set` only append to the log and keep the hash function. -/
theorem run_sets_append : ∀ (calls : List Call) (d : Database),
    (∀ c ∈ calls, c.isSetInDomain) →
    (d.run calls).hashFunc = d.hashFunc ∧ ∃ more, (d.run calls).f = d.f ++ more := by
  intro calls
  induction calls with
  | nil => intro d _; exact ⟨rfl, [], by simp [Database.run]⟩
  | cons c cs ih =>
    intro d hcs
    have hc := hcs c (List.mem_cons_self _ _)
    cases c with
    | set key value =>
      obtain ⟨h1, more, h2⟩ := ih (d.call (Call.set key value))
        (fun c1 hc1 => hcs c1 (List.mem_cons_of_mem _ hc1))
      simp only [Database.call, state_after_Set] at h1 h2
      simp only [Database.run, Database.call, state_after_Set]
      exact ⟨h1, _, by rw [h2, List.append_assoc]⟩
    | delete key => exact absurd hc (by simp [Call.isSetInDomain])
    | get key => exact absurd hc (by simp [Call.isSetInDomain])
    | batchSet keys values => exact absurd hc (by simp [Call.isSetInDomain])

/-- Every call of `Set` makes the log longer. -/
theorem run_sets_length : ∀ (calls : List Call) (d : Database),
    (∀ c ∈ calls, c.isSetInDomain) → d.f.length + calls.length ≤ (d.run calls).f.length := by
  intro calls
  induction calls with
  | nil => intro d _; simp [Database.run]
  | cons c cs ih =>
    intro d hcs
    have hc := hcs c (List.mem_cons_self _ _)
    cases c with
    | set key value =>
      have h1 := ih (d.call (Call.set key value))
        (fun c1 hc1 => hcs c1 (List.mem_cons_of_mem _ hc1))
      have h2 := headerBytes_length 0 (key.length % 2 ^ 32) (value.length % 2 ^ 32)
      simp only [Database.call, state_after_Set, List.length_append] at h1
      simp only [Database.run, Database.call, state_after_Set, List.length_cons]
      omega
    | delete key => exact absurd hc (by simp [Call.isSetInDomain])
    | get key => exact absurd hc (by simp [Call.isSetInDomain])
    | batchSet keys values => exact absurd hc (by simp [Call.isSetInDomain])

/-- The rebuild loop, started behind the log of a store with the index of that
store, over the records that a sequence of `Set` calls appends: it ends without
error with the index that the calls leave in memory. -/
theorem buildIndexLoop_sets : ∀ (calls : List Call) (d : Database) (fuel : Nat) (h : header),
    (∀ c ∈ calls, c.isSetInDomain) → calls.length < fuel →
    buildIndexLoop d.hashFunc fuel h
        { reader := (d.run calls).f.drop d.f.length, bytesRead := d.f.length } d.index =
      some ((d.run calls).index, none) := by
  intro calls
  induction calls with
  | nil =>
    intro d fuel h _ hf
    obtain ⟨n, rfl⟩ : ∃ n, fuel = n + 1 := ⟨fuel - 1, by simp at hf; omega⟩
    simp only [Database.run, List.drop_length]
    rfl
  | cons c cs ih =>
    intro d fuel h hcs hf
    obtain ⟨n, rfl⟩ : ∃ n, fuel = n + 1 := ⟨fuel - 1, by omega⟩
    have hc := hcs c (List.mem_cons_self _ _)
    cases c with
    | set key value =>
      obtain ⟨hk, hv⟩ := hc
      have hk1 : key.length % 2 ^ 32 = key.length := Nat.mod_eq_of_lt hk
      have hv1 : value.length % 2 ^ 32 = value.length := Nat.mod_eq_of_lt hv
      have hrest := fun c1 hc1 => hcs c1 (List.mem_cons_of_mem _ hc1)
      obtain ⟨_, more, hmore⟩ := run_sets_append cs (d.call (Call.set key value)) hrest
      have hih := ih (d.call (Call.set key value)) n
        { meta := 0, klen := key.length, vlen := value.length,
          offset := d.f.length + (headerBytes 0 key.length value.length).length }
        hrest (by simp only [List.length_cons] at hf; omega)
      simp only [Database.call, state_after_Set, hk1, hv1] at hmore hih
      simp only [Database.run, Database.call, state_after_Set, hk1, hv1]
      rw [hmore] at hih ⊢
      rw [List.drop_left] at hih
      rw [List.append_assoc, List.drop_left,
        show headerBytes 0 key.length value.length ++ (key ++ value) ++ more =
          headerBytes 0 key.length value.length ++ (key ++ value) ++ more from rfl,
        buildIndexLoop_record d.hashFunc n h d.f.length d.index 0 key value more hk hv]
      simp only [List.length_append, Nat.add_assoc] at hih ⊢
      exact hih
    | delete key => exact absurd hc (by simp [Call.isSetInDomain])
    | get key => exact absurd hc (by simp [Call.isSetInDomain])
    | batchSet keys values => exact absurd hc (by simp [Call.isSetInDomain])

/-- After any sequence of `Set` calls within the input domain on a store opened
on an empty log, `Open` on the log that `Close` leaves succeeds and returns the
very store that was closed: the rebuilt index is the index in memory. -/
theorem Open_after_sets (hashFunc : Bytes → Nat) (calls : List Call)
    (hcs : ∀ c ∈ calls, c.isSetInDomain) :
    Open hashFunc
        (Database.run { f := [], hashFunc := hashFunc, index := fun _ => none } calls).Close.1 =
      some (Except.ok
        (Database.run { f := [], hashFunc := hashFunc, index := fun _ => none } calls)) := by
  obtain ⟨hh, _⟩ := run_sets_append calls
    { f := [], hashFunc := hashFunc, index := fun _ => none } hcs
  have hb := buildIndexLoop_sets calls { f := [], hashFunc := hashFunc, index := fun _ => none }
    ((Database.run { f := [], hashFunc := hashFunc, index := fun _ => none } calls).f.length + 1)
    { meta := 0, klen := 0, vlen := 0, offset := 0 } hcs ?_
  · simp only [List.length_nil, List.drop_zero] at hb
    simp only [Open, Database.buildIndex, Database.Close, hb]
    congr 2
    rcases hr : Database.run { f := [], hashFunc := hashFunc, index := fun _ => none } calls
      with ⟨f1, hf1, idx1⟩
    rw [hr] at hh
    simp only at hh
    rw [hh]
  · have := run_sets_length calls { f := [], hashFunc := hashFunc, index := fun _ => none } hcs
    simp only [List.length_nil] at this
    omega

/-- Durability where the two lengths add up to less than `2 ^ 32`: after a
sequence of `Set` calls on a store opened on an empty log, `Close` and `Open`,
`Get(k)` returns the value of the last `Set(k, v)`, for a key whose hash no other
key written after it shares. -/
theorem Get_after_reopen (hashFunc : Bytes → Nat) (before after : List Call) (k v : Bytes)
    (hb : ∀ c ∈ before, c.isSetInDomain)
    (ha : ∀ c ∈ after, c.isSetInDomain ∧ ∀ k1 ∈ c.keys, hashFunc k1 ≠ hashFunc k)
    (hlen : k.length + v.length < 2 ^ 32) :
    ∃ d, Open hashFunc
        (Database.run { f := [], hashFunc := hashFunc, index := fun _ => none }
          (before ++ Call.set k v :: after)).Close.1 = some (Except.ok d) ∧
      d.Get k = Run.ret (some v, none) := by
  have hall : ∀ c ∈ before ++ Call.set k v :: after, c.isSetInDomain := by
    intro c hc
    rcases List.mem_append.mp hc with h | h
    · exact hb c h
    · rcases List.mem_cons.mp h with h | h
      · subst h; exact ⟨by omega, by omega⟩
      · exact (ha c h).1
  refine ⟨_, Open_after_sets hashFunc _ hall, ?_⟩
  have hsd : ∀ c : Call, c.isSetInDomain → c.isSetOrDelete ∧ ∀ k1 ∈ c.keys, k1.length < 2 ^ 32 := by
    intro c hc
    cases c with
    | set key value =>
      refine ⟨trivial, ?_⟩
      intro k1 hk1
      simp only [Call.keys, List.mem_singleton] at hk1
      rw [hk1]; exact hc.1
    | delete key => exact absurd hc (by simp [Call.isSetInDomain])
    | get key => exact absurd hc (by simp [Call.isSetInDomain])
    | batchSet keys values => exact absurd hc (by simp [Call.isSetInDomain])
  have hrun : ∀ (cs : List Call) (d : Database), d.valid → (∀ c ∈ cs, c.isSetInDomain) →
      (d.run cs).valid ∧ (d.run cs).hashFunc = d.hashFunc := by
    intro cs
    induction cs with
    | nil => intro d hv _; exact ⟨hv, rfl⟩
    | cons c cs ih =>
      intro d hv hcs
      obtain ⟨h1, h2⟩ := hsd c (hcs c (List.mem_cons_self _ _))
      obtain ⟨hv1, hh1, _⟩ := call_valid d c hv h1 h2
      obtain ⟨hv2, hh2⟩ := ih (d.call c) hv1 (fun c1 hc1 => hcs c1 (List.mem_cons_of_mem _ hc1))
      exact ⟨hv2, by rw [← hh1, ← hh2]; rfl⟩
  have hsplit : ∀ (cs cs2 : List Call) (d : Database), d.run (cs ++ cs2) = (d.run cs).run cs2 := by
    intro cs
    induction cs with
    | nil => intro cs2 d; rfl
    | cons c cs ih => intro cs2 d; exact ih cs2 (d.call c)
  obtain ⟨hv1, hh1⟩ := hrun before { f := [], hashFunc := hashFunc, index := fun _ => none }
    (indexValid_empty _ _) hb
  rw [hsplit]
  simp only [Database.run, Database.call]
  generalize Database.run { f := [], hashFunc := hashFunc, index := fun _ => none } before = d1
    at hv1 hh1 ⊢
  simp only at hh1
  obtain ⟨hv2, hh2, _⟩ := call_valid d1 (Call.set k v) hv1 trivial
    (by intro k1 hk1; simp only [Call.keys, List.mem_singleton] at hk1; rw [hk1]; omega)
  simp only [Database.call] at hv2 hh2
  have hk1 : k.length % 2 ^ 32 = k.length := Nat.mod_eq_of_lt (by omega)
  have hv1' : v.length % 2 ^ 32 = v.length := Nat.mod_eq_of_lt (by omega)
  have hs : (k.length + v.length) % 2 ^ 32 = k.length + v.length := Nat.mod_eq_of_lt hlen
  have hst := run_get_stable k
    { meta := 0, klen := k.length, vlen := v.length,
      offset := d1.f.length + (headerBytes 0 k.length v.length).length }
    after (Run.state d1 (d1.Set k v)) hv2
    (by
      rw [state_after_Set d1]
      simp only [indexInsert, hk1, hv1', if_true])
    (by
      rw [state_after_Set d1]
      simp only [hs, List.length_append, hk1, hv1']
      omega)
    (by simp only [hs]; omega)
    (fun c hc => by
      obtain ⟨a, e⟩ := ha c hc
      obtain ⟨a1, a2⟩ := hsd c a
      exact ⟨a1, a2, by rw [hh2, hh1]; exact e⟩)
  have hg := Get_after_set d1 k v hlen
  simp only [Database.Get] at hg ⊢
  rw [hst]
  exact hg

/-- Where the two lengths add up to less than `2 ^ 32`: after `Set(k, v)`,
`Delete(k)` returns no error and `Get(k)` then returns `ErrNotExists` with a `nil`
value. -/
theorem Delete_then_Get (d : Database) (k v : Bytes) (hlen : k.length + v.length < 2 ^ 32) :
    ∃ d1 d2, d.Set k v = Run.ret (d1, none) ∧ d1.Delete k = Run.ret (d2, none) ∧
      d2.Get k = Run.ret (none, some Error.ErrNotExists) := by
  refine ⟨_, _, Set_ret d k v, Delete_after_set d k v hlen, ?_⟩
  have hh : (Run.state d (d.Set k v)).hashFunc = d.hashFunc := by
    rw [state_after_Set]
  simp only [Database.Get]
  rw [get_absent]
  simp only [hh, indexDelete, if_true]

/-! ## Claims -/

/-- C1 (the code at the failing input): on every store, `Set` of a key of
`2 ^ 32 - 1` bytes with a value of one byte returns no error, and the `Get` of
that key right after it panics instead of returning the value. -/
theorem Set_Get_panics_at_uint32_sum (d : Database) :
    ∃ d1, d.Set (List.replicate 4294967295 0) [7] = Run.ret (d1, none) ∧
      d1.Get (List.replicate 4294967295 0) = Run.panic := by
  exact ⟨_, Set_ret d _ _, Get_after_set_overflow d _ _ length_replicate_max_lt
    (length_singleton_lt 7) length_replicate_max_sum⟩

/-- C3 (the code at the failing input): on every store, after `Set` of a key of
`2 ^ 32 - 1` bytes with a value of one byte, `Delete` of that key panics instead of
returning no error. -/
theorem Set_Delete_panics_at_uint32_sum (d : Database) :
    ∃ d1, d.Set (List.replicate 4294967295 0) [7] = Run.ret (d1, none) ∧
      d1.Delete (List.replicate 4294967295 0) = Run.panic := by
  exact ⟨_, Set_ret d _ _, Delete_after_set_overflow d _ _ length_replicate_max_lt
    (length_singleton_lt 7) length_replicate_max_sum⟩

/-- C5: `Get(k)` returns `ErrNotExists` with a `nil` value if and only if the hash
of `k` is not a key of the index; and `Open` on an empty log succeeds with a store
on which `Get` returns `ErrNotExists` with a `nil` value for every key. -/
theorem Get_ErrNotExists_iff :
    (∀ (d : Database) (k : Bytes),
      d.Get k = Run.ret (none, some Error.ErrNotExists) ↔ d.index (d.hashFunc k) = none) ∧
    (∀ (hashFunc : Bytes → Nat), ∃ d, Open hashFunc [] = some (Except.ok d) ∧
      ∀ k, d.Get k = Run.ret (none, some Error.ErrNotExists)) := by
  constructor
  · intro d k
    constructor
    · intro h
      cases hx : d.index (d.hashFunc k) with
      | none => rfl
      | some hd =>
        exfalso
        have hne := get_present_ne d k hd hx
        simp only [Database.Get] at h
        split at h
        · cases h
        · rename_i err hg
          simp only [Run.ret.injEq, Prod.mk.injEq, Option.some.injEq, true_and] at h
          exact hne (by rw [hg, h])
        · simp at h
    · intro h
      simp only [Database.Get, get_absent d k h]
  · intro hashFunc
    refine ⟨{ f := [], hashFunc := hashFunc, index := fun _ => none }, rfl, ?_⟩
    intro k
    rfl

/-- C6: `Delete(k)` of a key whose hash is not in the index returns
`ErrNotExists` and leaves the store as it was: no byte is appended to the log and
the index is unchanged. -/
theorem Delete_absent (d : Database) (k : Bytes) (h : d.index (d.hashFunc k) = none) :
    d.Delete k = Run.ret (d, some Error.ErrNotExists) := by
  simp only [Database.Delete, get_absent d k h]

theorem Delete_absent_witness :
    ({ f := [0, 1, 1, 5, 6], hashFunc := List.sum, index := fun _ => none } : Database).index
        (List.sum [5]) = none ∧
      ({ f := [0, 1, 1, 5, 6], hashFunc := List.sum, index := fun _ => none } : Database).Delete [5] =
        Run.ret ({ f := [0, 1, 1, 5, 6], hashFunc := List.sum, index := fun _ => none },
          some Error.ErrNotExists) :=
  ⟨rfl, Delete_absent { f := [0, 1, 1, 5, 6], hashFunc := List.sum, index := fun _ => none } [5] rfl⟩

/-- C7: for every meta byte and all `klen`, `vlen` below `2 ^ 32`, `header.encode`
succeeds on a buffer of at least `MaxHeaderSize` bytes, and `header.decodeFrom` on
the bytes it wrote (followed by any further bytes `rest`) succeeds, yields exactly
`meta`, `klen` and `vlen`, and consumes exactly the number of bytes that `encode`
returned: the reader stands at `rest` and its count grew by that number. -/
theorem header_round_trip (meta klen vlen offset : Nat) (h0 : header) (buf rest : Bytes)
    (c : Nat) (hk : klen < 2 ^ 32) (hv : vlen < 2 ^ 32) (hbuf : MaxHeaderSize ≤ buf.length) :
    ∃ out n,
      header.encode { meta := meta, klen := klen, vlen := vlen, offset := offset } buf =
        some (out, n) ∧
      h0.decodeFrom { reader := out.take n ++ rest, bytesRead := c } =
        (({ meta := meta, klen := klen, vlen := vlen, offset := h0.offset }, none),
          { reader := rest, bytesRead := c + n }) := by
  have hk64 : klen % 2 ^ 64 = klen := Nat.mod_eq_of_lt (lt_trans hk (by norm_num))
  have hv64 : vlen % 2 ^ 64 = vlen := Nat.mod_eq_of_lt (lt_trans hv (by norm_num))
  have hmax := headerBytes_length_le_max meta klen vlen hk hv
  have henc := encode_eq { meta := meta, klen := klen, vlen := vlen, offset := offset } buf
    (by simp only [hk64, hv64]; omega)
  simp only [hk64, hv64] at henc
  refine ⟨_, _, henc, ?_⟩
  rw [List.take_left]
  exact decodeFrom_headerBytes h0 meta klen vlen c rest hk hv

theorem header_round_trip_witness :
    ∃ out n,
      header.encode { meta := 1, klen := 300, vlen := 4294967295, offset := 0 }
        (List.replicate 11 0) = some (out, n) ∧
      header.decodeFrom { meta := 0, klen := 0, vlen := 0, offset := 9 }
          { reader := out.take n ++ [], bytesRead := 0 } =
        (({ meta := 1, klen := 300, vlen := 4294967295, offset := 9 }, none),
          { reader := [], bytesRead := 0 + n }) :=
  header_round_trip 1 300 4294967295 0 { meta := 0, klen := 0, vlen := 0, offset := 9 }
    (List.replicate 11 0) [] 0 (by norm_num) (by norm_num) (by decide)

/-- C2: on every reachable store, for every key `k` and values `v1`, `v2` with
`len(k) + len(v2) < 2 ^ 32`, both calls `Set(k, v1)` and `Set(k, v2)` return no
error and `Get(k)` then returns `v2`; and `Get(k)` still returns `v2` after any
further sequence of `Set` and `Delete` calls on keys (of the input domain: at most
32 bits of length) whose hash differs from the hash of `k`. -/
theorem last_write_wins (d : Database) (hd : Reachable d) (k v1 v2 : Bytes)
    (hlen : k.length + v2.length < 2 ^ 32) (calls : List Call)
    (hcalls : ∀ c ∈ calls, c.isSetOrDelete ∧ c.inDomain ∧
      ∀ k1 ∈ c.keys, d.hashFunc k1 ≠ d.hashFunc k) :
    ∃ d1 d2, d.Set k v1 = Run.ret (d1, none) ∧ d1.Set k v2 = Run.ret (d2, none) ∧
      d2.Get k = Run.ret (some v2, none) ∧
      (d2.run calls).Get k = Run.ret (some v2, none) := by
  have hk : k.length < 2 ^ 32 := by omega
  have hv0 := Reachable_valid d hd
  obtain ⟨hv1, hh1, _, _⟩ := call_valid d (Call.set k v1) hv0 trivial
    (by intro k1 hk1; simp only [Call.keys, List.mem_singleton] at hk1; rw [hk1]; exact hk)
  obtain ⟨hv2, hh2, _, _⟩ := call_valid _ (Call.set k v2) hv1 trivial
    (by intro k1 hk1; simp only [Call.keys, List.mem_singleton] at hk1; rw [hk1]; exact hk)
  simp only [Database.call] at hv1 hh1 hv2 hh2
  refine ⟨_, _, Set_ret d k v1, Set_ret _ k v2, Get_after_set _ k v2 hlen, ?_⟩
  have hg := Get_after_set (Run.state d (d.Set k v1)) k v2 hlen
  generalize Run.state d (d.Set k v1) = d1 at hv1 hh1 hv2 hh2 hg ⊢
  have hk1 : k.length % 2 ^ 32 = k.length := Nat.mod_eq_of_lt hk
  have hv1' : v2.length % 2 ^ 32 = v2.length := Nat.mod_eq_of_lt (by omega)
  have hs : (k.length + v2.length) % 2 ^ 32 = k.length + v2.length := Nat.mod_eq_of_lt hlen
  have hst := run_get_stable k
    { meta := 0, klen := k.length, vlen := v2.length,
      offset := d1.f.length + (headerBytes 0 k.length v2.length).length }
    calls (Run.state d1 (d1.Set k v2)) hv2
    (by
      rw [state_after_Set d1]
      simp only [indexInsert, hk1, hv1', if_true])
    (by
      rw [state_after_Set d1]
      simp only [hs, List.length_append, hk1, hv1']
      omega)
    (by simp only [hs]; omega)
    (fun c hc => by
      obtain ⟨a, b, e⟩ := hcalls c hc
      exact ⟨a, b.1, by rw [hh2, hh1]; exact e⟩)
  simp only [Database.Get] at hg ⊢
  rw [hst]
  exact hg

theorem last_write_wins_witness :
    ∃ d1 d2,
      ({ f := [], hashFunc := List.sum, index := fun _ => none } : Database).Set [1, 2] [7] =
        Run.ret (d1, none) ∧
      d1.Set [1, 2] [8, 9] = Run.ret (d2, none) ∧
      d2.Get [1, 2] = Run.ret (some [8, 9], none) ∧
      (d2.run [Call.set [5] [6], Call.delete [5], Call.delete [4]]).Get [1, 2] =
        Run.ret (some [8, 9], none) :=
  last_write_wins { f := [], hashFunc := List.sum, index := fun _ => none }
    (Reachable.opened List.sum [] _ rfl) [1, 2] [7] [8, 9] (by decide)
    [Call.set [5] [6], Call.delete [5], Call.delete [4]]
    (by
      intro c hc
      simp only [List.mem_cons, List.mem_singleton, List.not_mem_nil, or_false] at hc
      rcases hc with rfl | rfl | rfl <;>
        simp [Call.isSetOrDelete, Call.inDomain, Call.keys, Call.values])

/-- C4 (the code at the failing input): on a store opened on an empty log, `Set`
of a key of `2 ^ 32 - 1` bytes with a value of one byte returns no error; `Open`
on the log that `Close` leaves succeeds; and `Get` of that key on the reopened
store panics instead of returning the value. -/
theorem reopen_Get_panics_at_uint32_sum (hashFunc : Bytes → Nat) :
    ∃ d0 d1 d2, Open hashFunc [] = some (Except.ok d0) ∧
      d0.Set (List.replicate 4294967295 0) [7] = Run.ret (d1, none) ∧
      Open hashFunc d1.Close.1 = some (Except.ok d2) ∧
      d2.Get (List.replicate 4294967295 0) = Run.panic := by
  have h := Open_after_sets hashFunc [Call.set (List.replicate 4294967295 0) [7]]
    (by
      intro c hc
      rw [List.mem_singleton] at hc
      subst hc
      exact ⟨length_replicate_max_lt, length_singleton_lt 7⟩)
  simp only [Database.run, Database.call] at h
  exact ⟨_, _, _, rfl, Set_ret _ _ _, h,
    Get_after_set_overflow _ _ _ length_replicate_max_lt (length_singleton_lt 7)
      length_replicate_max_sum⟩

/-- C8: every `Set(k, v)` with lengths in the 32-bit domain returns no error and
extends the log by exactly the meta byte 0, the varint of `len(k)`, the varint of
`len(v)`, `k` and `v`; every `Delete` that returns no error extends the log by
exactly the meta byte 1 (bit 0 set), the varint of the key length, the varint of
0 and the key bytes stored at the offset of the index entry, with no value byte;
in both cases the old log is a prefix of the new one; and `Get` leaves the store
as it is. -/
theorem append_only_record_format :
    (∀ (d : Database) (k v : Bytes), k.length < 2 ^ 32 → v.length < 2 ^ 32 →
      ∃ d1, d.Set k v = Run.ret (d1, none) ∧
        d1.f = d.f ++ ([0] ++ uvarint k.length ++ uvarint v.length ++ k ++ v) ∧
        d.f <+: d1.f) ∧
    (∀ (d d1 : Database) (k : Bytes), d.Delete k = Run.ret (d1, none) →
      ∃ h, d.index (d.hashFunc k) = some h ∧
        ((d.f.drop h.offset).take h.klen).length = h.klen ∧
        header.deleted { meta := 1, klen := h.klen, vlen := 0, offset := 0 } = true ∧
        d1.f = d.f ++ ([1] ++ uvarint h.klen ++ uvarint 0 ++ (d.f.drop h.offset).take h.klen) ∧
        d.f <+: d1.f) ∧
    (∀ (d : Database) (k : Bytes), (d.call (Call.get k)).f = d.f) := by
  refine ⟨?_, ?_, fun _ _ => rfl⟩
  · intro d k v hk hv
    refine ⟨_, Set_ret d k v, ?_, ?_⟩
    · rw [state_after_Set, Nat.mod_eq_of_lt hk, Nat.mod_eq_of_lt hv]
      simp [headerBytes]
    · rw [state_after_Set]
      exact List.prefix_append _ _
  · intro d d1 k hd
    rcases Delete_cases d k with h | ⟨h, hx, hn, hk, he⟩
    · exfalso
      rw [hd] at h
      simp only [Run.state] at h
      subst h
      simp only [Database.Delete] at hd
      rcases hg : d1.get k with ⟨res⟩ | _
      · cases res with
        | error err => rw [hg] at hd; simp at hd
        | ok e =>
          rw [hg] at hd
          simp only [save_delete_eq, Run.ret.injEq, Prod.mk.injEq, and_true] at hd
          have hf := congrArg (fun x => x.f.length) hd
          simp [headerBytes] at hf
      · rw [hg] at hd; cases hd
    · rw [he] at hd
      simp only [Run.ret.injEq, Prod.mk.injEq, and_true] at hd
      subst hd
      refine ⟨h, hx, by rw [List.length_take]; omega, by simp [header.deleted], ?_,
        List.prefix_append _ _⟩
      simp [headerBytes]

theorem append_only_record_format_witness :
    (∃ d1, ({ f := [9], hashFunc := List.sum, index := fun _ => none } : Database).Set
          [1, 2] [3] = Run.ret (d1, none) ∧
        d1.f = [9] ++ ([0] ++ uvarint 2 ++ uvarint 1 ++ [1, 2] ++ [3]) ∧ [9] <+: d1.f) ∧
    (∃ h, ({ f := [0, 2, 1, 1, 2, 3], hashFunc := List.sum,
              index := fun x => if x = 3 then some ⟨0, 2, 1, 3⟩ else none } : Database).index
            (List.sum [1, 2]) = some h ∧
        (([0, 2, 1, 1, 2, 3] : Bytes).drop h.offset |>.take h.klen).length = h.klen ∧
        header.deleted { meta := 1, klen := h.klen, vlen := 0, offset := 0 } = true ∧
        [0, 2, 1, 1, 2, 3, 1, 2, 0, 1, 2] =
          [0, 2, 1, 1, 2, 3] ++ ([1] ++ uvarint h.klen ++ uvarint 0 ++
            (([0, 2, 1, 1, 2, 3] : Bytes).drop h.offset |>.take h.klen)) ∧
        [0, 2, 1, 1, 2, 3] <+: [0, 2, 1, 1, 2, 3, 1, 2, 0, 1, 2]) :=
  ⟨append_only_record_format.1 { f := [9], hashFunc := List.sum, index := fun _ => none }
      [1, 2] [3] (by decide) (by decide),
    append_only_record_format.2.1
      { f := [0, 2, 1, 1, 2, 3], hashFunc := List.sum,
        index := fun x => if x = 3 then some ⟨0, 2, 1, 3⟩ else none }
      { f := [0, 2, 1, 1, 2, 3, 1, 2, 0, 1, 2], hashFunc := List.sum,
        index := indexDelete (fun x => if x = 3 then some ⟨0, 2, 1, 3⟩ else none) 3 }
      [1, 2] rfl⟩

/-- C9 (the code at the failing input): for every hash function, `Open` succeeds
on a log made of the complete record of `Set([7], [8])` followed by the single
byte 0, which is a non-empty proper prefix (the meta byte) of a further record;
the index it returns holds the first record, and nothing reports the torn one. -/
theorem Open_succeeds_on_torn_record (hashFunc : Bytes → Nat) :
    recordBytes 0 [7] [8] = [0, 1, 1, 7, 8] ∧
    [0] <+: recordBytes 0 [7] [9] ∧ [0] ≠ recordBytes 0 [7] [9] ∧
    Open hashFunc (recordBytes 0 [7] [8] ++ [0]) =
      some (Except.ok
        { f := [0, 1, 1, 7, 8, 0], hashFunc := hashFunc,
          index := indexInsert (fun _ => none) (hashFunc [7]) ⟨0, 1, 1, 3⟩ }) := by
  have h1 : recordBytes 0 [7] [8] = [0, 1, 1, 7, 8] := by
    simp [recordBytes, headerBytes, uvarint_lt]
  have h2 : recordBytes 0 [7] [9] = [0, 1, 1, 7, 9] := by
    simp [recordBytes, headerBytes, uvarint_lt]
  refine ⟨h1, ?_, ?_, ?_⟩
  · rw [h2]; decide
  · rw [h2]; decide
  · rw [h1]; rfl

/-- C10 (the code at the failing input): on a stream that holds one byte, the
meta byte, `header.decodeFrom` returns `io.EOF`; on a stream that holds the meta
byte and the whole varint of `klen` but no byte of `vlen`, it returns `io.EOF`
as well. -/
theorem decodeFrom_EOF_on_nonempty_stream (h0 : header) (meta c : Nat) :
    (h0.decodeFrom { reader := [meta], bytesRead := c }).1.2 = some Error.EOF ∧
    (h0.decodeFrom { reader := [meta, 5], bytesRead := c }).1.2 = some Error.EOF ∧
    (h0.decodeFrom { reader := [meta, 0x85, 3], bytesRead := c }).1.2 = some Error.EOF :=
  ⟨rfl, rfl, rfl⟩

/-! ## The scan of a log that `Set` and `Delete` wrote -/

/-- The result of the rebuild loop does not depend on its bound, once the bound is
larger than the number of bytes left. -/
theorem buildIndexLoop_fuel (hashFunc : Bytes → Nat) :
    ∀ (fuel1 fuel2 : Nat) (h : header) (rc : readerCount) (index : Nat → Option header),
      rc.reader.length < fuel1 → rc.reader.length < fuel2 →
      buildIndexLoop hashFunc fuel1 h rc index = buildIndexLoop hashFunc fuel2 h rc index := by
  intro fuel1
  induction fuel1 with
  | zero => intro fuel2 h rc index h1 _; omega
  | succ n ih =>
    intro fuel2 h rc index h1 h2
    obtain ⟨m, rfl⟩ : ∃ m, fuel2 = m + 1 := ⟨fuel2 - 1, by omega⟩
    rw [buildIndexLoop_succ, buildIndexLoop_succ]
    obtain ⟨k, ha, hok⟩ := decodeFrom_advancedBy h rc
    rcases hdf : h.decodeFrom rc with ⟨⟨hd1, e1⟩, rc1⟩
    rw [hdf] at ha hok
    cases e1 with
    | some e => rfl
    | none =>
      simp only
      obtain ⟨hk3, _, _⟩ := hok rfl
      rcases hde : decodeEntry rc1 hd1 false with ⟨⟨res1, cnt⟩, rc2⟩
      cases res1 with
      | error e => rfl
      | ok e =>
        simp only
        obtain ⟨ha2, _⟩ := decodeEntry_false_ok rc1 rc2 hd1 e cnt hde
        obtain ⟨a1, a2, _⟩ := ha
        obtain ⟨b1, b2, _⟩ := ha2
        have hl : rc2.reader.length + 3 ≤ rc.reader.length := by
          rw [b2, List.length_drop, a2, List.length_drop]
          rw [a2, List.length_drop] at b1
          omega
        exact ih m _ rc2 _ (by omega) (by omega)

theorem scan_nil (hashFunc : Bytes → Nat) (h : header) (c : Nat)
    (index : Nat → Option header) :
    scan hashFunc h { reader := [], bytesRead := c } index = some (index, none) := rfl

/-- One step of the scan over a whole record. -/
theorem scan_record (hashFunc : Bytes → Nat) (h : header) (c : Nat)
    (index : Nat → Option header) (meta : Nat) (k v rest : Bytes)
    (hk : k.length < 2 ^ 32) (hv : v.length < 2 ^ 32) :
    scan hashFunc h
        { reader := headerBytes meta k.length v.length ++ (k ++ v) ++ rest, bytesRead := c } index =
      scan hashFunc
        { meta := meta, klen := k.length, vlen := v.length,
          offset := c + (headerBytes meta k.length v.length).length }
        { reader := rest,
          bytesRead := c + (headerBytes meta k.length v.length).length + (k.length + v.length) }
        (indexInsert index (hashFunc k)
          { meta := meta, klen := k.length, vlen := v.length,
            offset := c + (headerBytes meta k.length v.length).length }) := by
  have hl := headerBytes_length meta k.length v.length
  simp only [scan]
  rw [show (headerBytes meta k.length v.length ++ (k ++ v) ++ rest).length + 1 =
        ((headerBytes meta k.length v.length ++ (k ++ v) ++ rest).length) + 1 from rfl,
    buildIndexLoop_record hashFunc _ h c index meta k v rest hk hv]
  exact buildIndexLoop_fuel hashFunc _ _ _ _ _
    (by simp only [List.length_append]; omega) (by simp)

theorem Open_eq_scan (hashFunc : Bytes → Nat) (log : Bytes) :
    Open hashFunc log =
      match scan hashFunc { meta := 0, klen := 0, vlen := 0, offset := 0 }
          { reader := log, bytesRead := 0 } (fun _ => none) with
      | none => none
      | some (_, some err) => some (Except.error (Error.wrap Context.buildIndex err))
      | some (index, none) =>
        some (Except.ok { f := log, hashFunc := hashFunc, index := index }) := by
  rcases hb : buildIndexLoop hashFunc (log.length + 1)
      { meta := 0, klen := 0, vlen := 0, offset := 0 } { reader := log, bytesRead := 0 }
      (fun _ => none) with _ | ⟨idx, _ | err⟩ <;>
    simp only [Open, Database.buildIndex, scan, hb]

theorem rebuiltFrom_refl (index : Nat → Option header) : rebuiltFrom index index :=
  fun _ => Or.inl rfl

/-- The scan over what one call of `Set` or `Delete` (within the input domain, on
a store that satisfies the invariant) appended to the log: it goes on behind
these bytes with an index that still stands to the index in memory as a rebuilt
index does, and that is unchanged under every hash that no key of the call has. -/
theorem scan_call (d : Database) (c : Call) (hv : d.valid) (hc : c.isSetOrDelete)
    (hd : c.inDomain) (h : header) (idx : Nat → Option header) (rest : Bytes) :
    ∃ h1 idx1,
      scan d.hashFunc h
          { reader := (d.call c).f.drop d.f.length ++ rest, bytesRead := d.f.length } idx =
        scan d.hashFunc h1 { reader := rest, bytesRead := (d.call c).f.length } idx1 ∧
      (rebuiltFrom d.index idx → rebuiltFrom (d.call c).index idx1) ∧
      (∀ x, (∀ k ∈ c.keys, d.hashFunc k ≠ x) → idx1 x = idx x) ∧
      (∀ x, idx x ≠ none → idx1 x ≠ none) := by
  cases c with
  | set key value =>
    have hk : key.length < 2 ^ 32 := hd.1 key (by simp [Call.keys])
    have hvl : value.length < 2 ^ 32 := hd.2 value (by simp [Call.values])
    have hk1 : key.length % 2 ^ 32 = key.length := Nat.mod_eq_of_lt hk
    have hv1 : value.length % 2 ^ 32 = value.length := Nat.mod_eq_of_lt hvl
    refine ⟨header.mk 0 key.length value.length
        (d.f.length + (headerBytes 0 key.length value.length).length),
      indexInsert idx (d.hashFunc key) (header.mk 0 key.length value.length
        (d.f.length + (headerBytes 0 key.length value.length).length)), ?_, ?_, ?_, ?_⟩
    · simp only [Database.call, state_after_Set, hk1, hv1]
      rw [List.drop_left, scan_record d.hashFunc h d.f.length idx 0 key value rest hk hvl]
      simp only [List.length_append, Nat.add_assoc]
    · intro hr x
      simp only [Database.call, state_after_Set, hk1, hv1, indexInsert]
      by_cases hx : x = d.hashFunc key
      · left; rw [if_pos hx, if_pos hx]
      · rw [if_neg hx, if_neg hx]; exact hr x
    · intro x hx
      have hne : d.hashFunc key ≠ x := hx key (by simp [Call.keys])
      simp only [indexInsert]
      rw [if_neg (fun hh => hne hh.symm)]
    · intro x hx
      simp only [indexInsert]
      split
      · simp
      · exact hx
  | delete key =>
    rcases Delete_cases d key with hsame | ⟨hx, hxi, hn, hkl, he⟩
    · refine ⟨h, idx, ?_, ?_, fun _ _ => rfl, fun _ hne => hne⟩
      · simp only [Database.call, hsame, List.drop_length, List.nil_append]
      · intro hr
        simp only [Database.call, hsame]
        exact hr
    · have hlen : ((d.f.drop hx.offset).take hx.klen).length = hx.klen := by
        rw [List.length_take]; omega
      have hlt : hx.klen < 2 ^ 32 := lt_of_le_of_lt hkl (Nat.mod_lt _ (by norm_num))
      have hhash := (hv _ hx hxi).2.2.2
      have hsr := scan_record d.hashFunc h d.f.length idx 1
        ((d.f.drop hx.offset).take hx.klen) [] rest (by rw [hlen]; exact hlt) (by simp)
      simp only [hlen, List.length_nil, List.append_nil] at hsr
      refine ⟨header.mk 1 hx.klen 0 (d.f.length + (headerBytes 1 hx.klen 0).length),
        indexInsert idx (d.hashFunc ((d.f.drop hx.offset).take hx.klen))
          (header.mk 1 hx.klen 0 (d.f.length + (headerBytes 1 hx.klen 0).length)),
        ?_, ?_, ?_, ?_⟩
      · simp only [Database.call, he, Run.state]
        rw [List.drop_left, hsr]
        simp only [List.length_append, hlen, Nat.add_zero, Nat.add_assoc]
      · intro hr x
        simp only [Database.call, he, Run.state, indexInsert, indexDelete]
        by_cases hxx : x = d.hashFunc ((d.f.drop hx.offset).take hx.klen)
        · right
          rw [if_pos hxx, if_pos hxx]
          exact ⟨rfl, _, rfl, by simp [header.deleted], rfl⟩
        · rw [if_neg hxx, if_neg hxx]; exact hr x
      · intro x hxne
        have hne : d.hashFunc key ≠ x := hxne key (by simp [Call.keys])
        simp only [indexInsert]
        rw [hhash, if_neg (fun hh => hne hh.symm)]
      · intro x hxn
        simp only [indexInsert]
        split
        · simp
        · exact hxn
  | get key => exact absurd hc (by simp [Call.isSetOrDelete])
  | batchSet keys values => exact absurd hc (by simp [Call.isSetOrDelete])

theorem run_append (d : Database) : ∀ (cs cs2 : List Call),
    d.run (cs ++ cs2) = (d.run cs).run cs2 := by
  intro cs
  induction cs generalizing d with
  | nil => intro cs2; rfl
  | cons c cs ih => intro cs2; exact ih (d.call c) cs2

/-- Calls of `Set` and `Delete` within the input domain keep the invariant and the
hash function, and only append to the log. -/
theorem run_valid : ∀ (calls : List Call) (d : Database), d.valid →
    (∀ c ∈ calls, c.isSetOrDelete ∧ c.inDomain) →
    (d.run calls).valid ∧ (d.run calls).hashFunc = d.hashFunc ∧
      ∃ more, (d.run calls).f = d.f ++ more := by
  intro calls
  induction calls with
  | nil => intro d hv _; exact ⟨hv, rfl, [], by simp [Database.run]⟩
  | cons c cs ih =>
    intro d hv hcs
    obtain ⟨hc1, hc2⟩ := hcs c (List.mem_cons_self _ _)
    obtain ⟨hv1, hh1, m1, hf1⟩ := call_valid d c hv hc1 hc2.1
    obtain ⟨hv2, hh2, m2, hf2⟩ := ih (d.call c) hv1
      (fun c1 hc1 => hcs c1 (List.mem_cons_of_mem _ hc1))
    exact ⟨hv2, by rw [← hh1, ← hh2]; rfl, m1 ++ m2, by
      simp only [Database.run]; rw [hf2, hf1, List.append_assoc]⟩

/-- The scan over what a sequence of `Set` and `Delete` calls appended to the
log. -/
theorem scan_calls : ∀ (calls : List Call) (d : Database), d.valid →
    (∀ c ∈ calls, c.isSetOrDelete ∧ c.inDomain) →
    ∀ (h : header) (idx : Nat → Option header) (rest : Bytes),
    ∃ h1 idx1,
      scan d.hashFunc h
          { reader := (d.run calls).f.drop d.f.length ++ rest, bytesRead := d.f.length } idx =
        scan d.hashFunc h1 { reader := rest, bytesRead := (d.run calls).f.length } idx1 ∧
      (rebuiltFrom d.index idx → rebuiltFrom (d.run calls).index idx1) ∧
      (∀ x, (∀ c ∈ calls, ∀ k ∈ c.keys, d.hashFunc k ≠ x) → idx1 x = idx x) ∧
      (∀ x, idx x ≠ none → idx1 x ≠ none) := by
  intro calls
  induction calls with
  | nil =>
    intro d _ _ h idx rest
    refine ⟨h, idx, ?_, fun hr => hr, fun _ _ => rfl, fun _ hne => hne⟩
    simp only [Database.run, List.drop_length, List.nil_append]
  | cons c cs ih =>
    intro d hv hcs h idx rest
    obtain ⟨hc1, hc2⟩ := hcs c (List.mem_cons_self _ _)
    have hrest := fun c1 hc1 => hcs c1 (List.mem_cons_of_mem _ hc1)
    obtain ⟨hv1, hh1, m1, hf1⟩ := call_valid d c hv hc1 hc2.1
    obtain ⟨_, _, m2, hf2⟩ := run_valid cs (d.call c) hv1 hrest
    obtain ⟨h1, idx1, hs1, hr1, hfr1, hm1⟩ := scan_call d c hv hc1 hc2 h idx
      ((((d.call c).run cs).f.drop (d.call c).f.length) ++ rest)
    obtain ⟨h2, idx2, hs2, hr2, hfr2, hm2⟩ := ih (d.call c) hv1 hrest h1 idx1 rest
    refine ⟨h2, idx2, ?_, fun hr => hr2 (hr1 hr), ?_, fun x hx => hm2 x (hm1 x hx)⟩
    · rw [hh1] at hs2
      simp only [Database.run]
      rw [← hs2, ← hs1]
      have e1 : List.drop d.f.length ((d.call c).run cs).f = m1 ++ m2 := by
        rw [hf2, hf1, List.append_assoc, List.drop_left]
      have e2 : List.drop d.f.length (d.call c).f = m1 := by rw [hf1, List.drop_left]
      have e3 : List.drop (d.call c).f.length ((d.call c).run cs).f = m2 := by
        rw [hf2, List.drop_left]
      rw [e1, e2, e3, List.append_assoc]
    · intro x hx
      rw [hfr2 x (fun c1 hc1 k hk => by
          rw [hh1]; exact hx c1 (List.mem_cons_of_mem _ hc1) k hk),
        hfr1 x (fun k hk => hx c (List.mem_cons_self _ _) k hk)]

/-- After any sequence of `Set` and `Delete` calls within the input domain on a
store opened on an empty log, `Open` on the log succeeds, and the index it builds
stands to the index in memory as a rebuilt index does. -/
theorem Open_after_calls (hashFunc : Bytes → Nat) (calls : List Call)
    (hcs : ∀ c ∈ calls, c.isSetOrDelete ∧ c.inDomain) :
    ∃ idx,
      Open hashFunc
          (Database.run { f := [], hashFunc := hashFunc, index := fun _ => none } calls).f =
        some (Except.ok
          { f := (Database.run { f := [], hashFunc := hashFunc, index := fun _ => none } calls).f,
            hashFunc := hashFunc, index := idx }) ∧
      rebuiltFrom
        (Database.run { f := [], hashFunc := hashFunc, index := fun _ => none } calls).index idx := by
  obtain ⟨h1, idx1, hs, hr, _, _⟩ := scan_calls calls
    { f := [], hashFunc := hashFunc, index := fun _ => none } (indexValid_empty _ _) hcs
    { meta := 0, klen := 0, vlen := 0, offset := 0 } (fun _ => none) []
  simp only [List.length_nil, List.drop_zero, List.append_nil] at hs
  refine ⟨idx1, ?_, hr (rebuiltFrom_refl _)⟩
  rw [Open_eq_scan, hs, scan_nil]

/-- The scan over a log made of complete records (lengths below `2 ^ 32`) goes
through all of them and on behind them, whatever follows. -/
theorem scan_recordsLog (hashFunc : Bytes → Nat) : ∀ (recs : List (Nat × Bytes × Bytes)),
    (∀ r ∈ recs, r.2.1.length < 2 ^ 32 ∧ r.2.2.length < 2 ^ 32) →
    ∀ (h : header) (c : Nat) (idx : Nat → Option header),
    ∃ h1 idx1, ∀ rest,
      scan hashFunc h { reader := recordsLog recs ++ rest, bytesRead := c } idx =
        scan hashFunc h1 { reader := rest, bytesRead := c + (recordsLog recs).length } idx1 := by
  intro recs
  induction recs with
  | nil =>
    intro _ h c idx
    exact ⟨h, idx, fun rest => by simp [recordsLog]⟩
  | cons r rs ih =>
    intro hrs h c idx
    obtain ⟨hk, hv⟩ := hrs r (List.mem_cons_self _ _)
    obtain ⟨h1, idx1, hs⟩ := ih (fun r1 hr1 => hrs r1 (List.mem_cons_of_mem _ hr1))
      { meta := r.1, klen := r.2.1.length, vlen := r.2.2.length,
        offset := c + (headerBytes r.1 r.2.1.length r.2.2.length).length }
      (c + (headerBytes r.1 r.2.1.length r.2.2.length).length + (r.2.1.length + r.2.2.length))
      (indexInsert idx (hashFunc r.2.1)
        { meta := r.1, klen := r.2.1.length, vlen := r.2.2.length,
          offset := c + (headerBytes r.1 r.2.1.length r.2.2.length).length })
    refine ⟨h1, idx1, fun rest => ?_⟩
    have hrl : recordsLog (r :: rs) =
        headerBytes r.1 r.2.1.length r.2.2.length ++ (r.2.1 ++ r.2.2) ++ recordsLog rs := by
      simp only [recordsLog, List.map_cons, List.flatten_cons, recordBytes]
    have hcons : recordsLog (r :: rs) ++ rest =
        headerBytes r.1 r.2.1.length r.2.2.length ++ (r.2.1 ++ r.2.2) ++
          (recordsLog rs ++ rest) := by
      rw [hrl, List.append_assoc]
    have hlen : (recordsLog (r :: rs)).length =
        (headerBytes r.1 r.2.1.length r.2.2.length).length + (r.2.1.length + r.2.2.length) +
          (recordsLog rs).length := by
      rw [hrl]; simp only [List.length_append]
    rw [hcons, scan_record hashFunc h c idx r.1 r.2.1 r.2.2 _ hk hv, hs rest, hlen]
    simp only [Nat.add_assoc]

/-- The function `Open` succeeds on every log made of complete records; the scan
of such a log followed by more bytes goes on behind it with the index that `Open`
returns. -/
theorem Open_recordsLog (hashFunc : Bytes → Nat) (recs : List (Nat × Bytes × Bytes))
    (hrecs : ∀ r ∈ recs, r.2.1.length < 2 ^ 32 ∧ r.2.2.length < 2 ^ 32) :
    ∃ h1 idx,
      Open hashFunc (recordsLog recs) =
        some (Except.ok { f := recordsLog recs, hashFunc := hashFunc, index := idx }) ∧
      ∀ rest,
        scan hashFunc { meta := 0, klen := 0, vlen := 0, offset := 0 }
            { reader := recordsLog recs ++ rest, bytesRead := 0 } (fun _ => none) =
          scan hashFunc h1 { reader := rest, bytesRead := (recordsLog recs).length } idx := by
  obtain ⟨h1, idx, hs⟩ := scan_recordsLog hashFunc recs hrecs
    { meta := 0, klen := 0, vlen := 0, offset := 0 } 0 (fun _ => none)
  simp only [Nat.zero_add] at hs
  refine ⟨h1, idx, ?_, hs⟩
  have h0 := hs []
  rw [List.append_nil] at h0
  rw [Open_eq_scan, h0, scan_nil]

/-- A store opened on a log made of complete records, then used with a sequence
of `Set` and `Delete` calls in two parts: `Open` on the log they leave succeeds;
the index it builds stands to the index in memory as a rebuilt index does; it
holds an entry under every hash under which the scan had one after the first
part, and under a hash that no key of the second part has it holds that very
entry. -/
theorem Open_after_calls_two (hashFunc : Bytes → Nat) (recs : List (Nat × Bytes × Bytes))
    (hrecs : ∀ r ∈ recs, r.2.1.length < 2 ^ 32 ∧ r.2.2.length < 2 ^ 32)
    (d0 : Database) (hopen : Open hashFunc (recordsLog recs) = some (Except.ok d0))
    (first second : List Call)
    (h1 : ∀ c ∈ first, c.isSetOrDelete ∧ c.inDomain)
    (h2 : ∀ c ∈ second, c.isSetOrDelete ∧ c.inDomain) :
    ∃ idx1 idx2,
      Open hashFunc (d0.run (first ++ second)).f =
        some (Except.ok
          { f := (d0.run (first ++ second)).f, hashFunc := hashFunc, index := idx2 }) ∧
      rebuiltFrom (d0.run first).index idx1 ∧
      rebuiltFrom (d0.run (first ++ second)).index idx2 ∧
      (∀ x, idx1 x ≠ none → idx2 x ≠ none) ∧
      (∀ x, (∀ c ∈ second, ∀ k ∈ c.keys, hashFunc k ≠ x) → idx2 x = idx1 x) := by
  obtain ⟨hL, idxL, ho, hsL⟩ := Open_recordsLog hashFunc recs hrecs
  obtain ⟨hf0, hh0, hval0⟩ := Open_valid hashFunc _ d0 hopen
  have hv0 : d0.valid := by
    simp only [Database.valid, hf0, hh0]; exact hval0
  have hidx0 : d0.index = idxL := by
    rw [ho] at hopen
    simp only [Option.some.injEq, Except.ok.injEq] at hopen
    rw [← hopen]
  obtain ⟨hv1, hh1, m1, hf1⟩ := run_valid first d0 hv0 h1
  obtain ⟨_, _, m2, hf2⟩ := run_valid second _ hv1 h2
  obtain ⟨ha, idx1, hs1, hr1, _, _⟩ := scan_calls first d0 hv0 h1 hL d0.index m2
  obtain ⟨hb, idx2, hs2, hr2, hfr2, hm2⟩ := scan_calls second _ hv1 h2 ha idx1 []
  rw [hh1, hh0] at hs2 hfr2
  rw [hh0, hf1, List.drop_left, hf0, hidx0, ← hf0, ← hf1] at hs1
  rw [hf2, List.drop_left, List.append_nil, ← hf2] at hs2
  refine ⟨idx1, idx2, ?_, hr1 (rebuiltFrom_refl _), ?_, hm2, hfr2⟩
  · rw [Open_eq_scan, run_append, hf2, hf1, List.append_assoc, hf0, hsL (m1 ++ m2)]
    rw [hf0] at hs1
    rw [hs1, hs2, scan_nil]
  · rw [run_append]
    exact hr2 (hr1 (rebuiltFrom_refl _))

/-- Calls of `Set` and `Delete` on keys with another hash leave the entry of the
index under the hash `x` as it is. -/
theorem run_index_other (x : Nat) : ∀ (calls : List Call) (d : Database), d.valid →
    (∀ c ∈ calls, c.isSetOrDelete ∧ c.inDomain ∧ ∀ k ∈ c.keys, d.hashFunc k ≠ x) →
    (d.run calls).index x = d.index x := by
  intro calls
  induction calls with
  | nil => intro d _ _; rfl
  | cons c cs ih =>
    intro d hv hcs
    obtain ⟨hc1, hc2, hc3⟩ := hcs c (List.mem_cons_self _ _)
    obtain ⟨hv1, hh1, _⟩ := call_valid d c hv hc1 hc2.1
    simp only [Database.run]
    rw [ih (d.call c) hv1 (fun c1 hc1 => by
        obtain ⟨a, b, e⟩ := hcs c1 (List.mem_cons_of_mem _ hc1)
        exact ⟨a, b, by rw [hh1]; exact e⟩),
      call_index_other d c x hv hc1 hc3]

theorem set_inDomain (k v : Bytes) (hk : k.length < 2 ^ 32) (hv : v.length < 2 ^ 32) :
    (Call.set k v).inDomain := by
  constructor
  · intro k1 h1
    simp only [Call.keys, List.mem_singleton] at h1
    rw [h1]; exact hk
  · intro v1 h1
    simp only [Call.values, List.mem_singleton] at h1
    rw [h1]; exact hv

theorem delete_inDomain (k : Bytes) (hk : k.length < 2 ^ 32) : (Call.delete k).inDomain := by
  constructor
  · intro k1 h1
    simp only [Call.keys, List.mem_singleton] at h1
    rw [h1]; exact hk
  · intro v1 h1
    simp only [Call.values, List.not_mem_nil] at h1

/-- The record that a call of `Set` or `Delete` appends, if it appends one. -/
theorem call_records (d : Database) (c : Call) (hc : c.isSetOrDelete) (hd : c.inDomain) :
    ∃ recs : List (Nat × Bytes × Bytes),
      (d.call c).f = d.f ++ (recs.map fun r => recordBytes r.1 r.2.1 r.2.2).flatten := by
  cases c with
  | set key value =>
    have hk : key.length < 2 ^ 32 := hd.1 key (by simp [Call.keys])
    have hvl : value.length < 2 ^ 32 := hd.2 value (by simp [Call.values])
    refine ⟨[(0, key, value)], ?_⟩
    simp only [Database.call, state_after_Set, Nat.mod_eq_of_lt hk, Nat.mod_eq_of_lt hvl,
      List.map_cons, List.map_nil, List.flatten_cons, List.flatten_nil, List.append_nil, recordBytes]
  | delete key =>
    rcases Delete_cases d key with hsame | ⟨hx, hxi, hn, hkl, he⟩
    · exact ⟨[], by simp [Database.call, hsame]⟩
    · have hlen : ((d.f.drop hx.offset).take hx.klen).length = hx.klen := by
        rw [List.length_take]; omega
      refine ⟨[(1, (d.f.drop hx.offset).take hx.klen, [])], ?_⟩
      simp only [Database.call, he, Run.state, List.map_cons, List.map_nil, List.flatten_cons,
        List.flatten_nil, List.append_nil, recordBytes, hlen, List.length_nil]
  | get key => exact absurd hc (by simp [Call.isSetOrDelete])
  | batchSet keys values => exact absurd hc (by simp [Call.isSetOrDelete])

/-- The log after calls of `Set` and `Delete` is the log before them followed by
a concatenation of complete records. -/
theorem run_records : ∀ (calls : List Call) (d : Database),
    (∀ c ∈ calls, c.isSetOrDelete ∧ c.inDomain) →
    ∃ recs : List (Nat × Bytes × Bytes),
      (d.run calls).f = d.f ++ (recs.map fun r => recordBytes r.1 r.2.1 r.2.2).flatten := by
  intro calls
  induction calls with
  | nil => intro d _; exact ⟨[], by simp [Database.run]⟩
  | cons c cs ih =>
    intro d hcs
    obtain ⟨hc1, hc2⟩ := hcs c (List.mem_cons_self _ _)
    obtain ⟨r1, e1⟩ := call_records d c hc1 hc2
    obtain ⟨r2, e2⟩ := ih (d.call c) (fun c1 hc1 => hcs c1 (List.mem_cons_of_mem _ hc1))
    refine ⟨r1 ++ r2, ?_⟩
    simp only [Database.run]
    rw [e2, e1, List.map_append, List.flatten_append, List.append_assoc]

/-! ## Batches, aliased keys and the count of `decodeEntry` -/

/-- The loop of `BatchSet` leaves the store that the calls `Set(keys[i], values[i])`
leave one after the other, and its last error is `nil`. -/
theorem BatchSetLoop_eq : ∀ (keys values : List Bytes) (d : Database) (err : Option Error),
    keys.length = values.length →
    d.BatchSetLoop keys values err =
      Run.ret (d.run (List.zipWith Call.set keys values),
        if keys = [] then err else none) := by
  intro keys
  induction keys with
  | nil =>
    intro values d err hl
    cases values with
    | nil => rfl
    | cons v vs => simp at hl
  | cons k ks ih =>
    intro values d err hl
    cases values with
    | nil => simp at hl
    | cons v vs =>
      simp only [List.length_cons, Nat.add_right_cancel_iff] at hl
      have hs : d.save k v false false = Run.ret (Run.state d (d.Set k v), none) := by
        rw [save_set_eq, Database.Set, save_set_eq]; rfl
      simp only [Database.BatchSetLoop, hs, ih vs _ none hl, List.zipWith_cons_cons,
        Database.run, Database.call]
      by_cases hks : ks = []
      · simp [hks]
      · simp [hks]

theorem BatchSet_eq_Sets_aux (d : Database) (keys values : List Bytes)
    (h : keys.length = values.length) :
    d.BatchSet keys values = Run.ret (d.run (List.zipWith Call.set keys values), none) := by
  have hl := BatchSetLoop_eq keys values d none h
  simp only [ite_self] at hl
  simp only [Database.BatchSet, if_neg (not_not.mpr h), hl]

theorem get_congr_hash (d : Database) (k1 k2 : Bytes) (h : d.hashFunc k1 = d.hashFunc k2) :
    d.get k1 = d.get k2 := by
  simp only [Database.get, h]

theorem Get_congr_hash (d : Database) (k1 k2 : Bytes) (h : d.hashFunc k1 = d.hashFunc k2) :
    d.Get k1 = d.Get k2 := by
  simp only [Database.Get, get_congr_hash d k1 k2 h]

/-- Two keys with one hash are one key for the store: where the two lengths of the
second `Set` add up to less than `2 ^ 32`, `Get` of the first key returns the
value of the second. -/
theorem Get_aliased (d : Database) (k1 v1 k2 v2 : Bytes)
    (hh : d.hashFunc k1 = d.hashFunc k2) (hlen : k2.length + v2.length < 2 ^ 32) :
    ∃ d1 d2, d.Set k1 v1 = Run.ret (d1, none) ∧ d1.Set k2 v2 = Run.ret (d2, none) ∧
      d2.Get k1 = Run.ret (some v2, none) := by
  refine ⟨_, _, Set_ret d k1 v1, Set_ret _ k2 v2, ?_⟩
  have h1 : (Run.state d (d.Set k1 v1)).hashFunc = d.hashFunc := by rw [state_after_Set]
  have h2 : (Run.state (Run.state d (d.Set k1 v1))
      ((Run.state d (d.Set k1 v1)).Set k2 v2)).hashFunc = d.hashFunc := by
    rw [state_after_Set, h1]
  rw [Get_congr_hash _ k1 k2 (by rw [h2]; exact hh)]
  exact Get_after_set _ k2 v2 hlen

/-- The function `decodeEntry` with the value, on a header that is no tombstone
and a stream that holds the whole record: it returns the key and the value, and
as count the length of the key twice. -/
theorem decodeEntry_true_eq (r : readerCount) (h : header) (hd : h.deleted = false)
    (hlen : h.klen + h.vlen ≤ r.reader.length) :
    decodeEntry r h true =
      ((Except.ok { value := (r.reader.drop h.klen).take h.vlen, key := r.reader.take h.klen },
          h.klen + h.klen),
        { reader := r.reader.drop (h.klen + h.vlen),
          bytesRead := r.bytesRead + (h.klen + h.vlen) }) := by
  have h1 := ReadFull_ok r h.klen (by omega)
  have h2 := ReadFull_ok
    { reader := r.reader.drop h.klen, bytesRead := r.bytesRead + h.klen } h.vlen
    (by simp only [List.length_drop]; omega)
  simp only [decodeEntry, h1, hd, Bool.not_true, Bool.or_self, Bool.false_eq_true, if_false, h2,
    List.drop_drop, Nat.add_assoc]

/-! ## The invariant under all four calls -/

theorem run_zipWith_valid : ∀ (keys values : List Bytes) (d : Database), d.valid →
    (∀ k ∈ keys, k.length < 2 ^ 32) →
    (d.run (List.zipWith Call.set keys values)).valid ∧
      (d.run (List.zipWith Call.set keys values)).hashFunc = d.hashFunc := by
  intro keys
  induction keys with
  | nil => intro values d hv _; exact ⟨hv, rfl⟩
  | cons k ks ih =>
    intro values d hv hks
    cases values with
    | nil => exact ⟨hv, rfl⟩
    | cons v vs =>
      obtain ⟨hv1, hh1, _⟩ := call_valid d (Call.set k v) hv trivial
        (by
          intro k1 hk1
          simp only [Call.keys, List.mem_singleton] at hk1
          rw [hk1]; exact hks k (List.mem_cons_self _ _))
      obtain ⟨hv2, hh2⟩ := ih vs (d.call (Call.set k v)) hv1
        (fun k1 hk1 => hks k1 (List.mem_cons_of_mem _ hk1))
      exact ⟨hv2, by rw [← hh1, ← hh2]; rfl⟩

/-- Every call within the input domain keeps the invariant and the hash
function. -/
theorem call_valid_all (d : Database) (c : Call) (hv : d.valid)
    (hd : ∀ k ∈ c.keys, k.length < 2 ^ 32) :
    (d.call c).valid ∧ (d.call c).hashFunc = d.hashFunc := by
  cases c with
  | set key value =>
    obtain ⟨a, b, _⟩ := call_valid d (Call.set key value) hv trivial hd
    exact ⟨a, b⟩
  | delete key =>
    obtain ⟨a, b, _⟩ := call_valid d (Call.delete key) hv trivial hd
    exact ⟨a, b⟩
  | get key => exact ⟨hv, rfl⟩
  | batchSet keys values =>
    by_cases hl : keys.length = values.length
    · simp only [Database.call, BatchSet_eq_Sets_aux d keys values hl, Run.state]
      exact run_zipWith_valid keys values d hv hd
    · simp only [Database.call, Database.BatchSet, if_pos hl, Run.state]
      exact ⟨hv, trivial⟩

theorem run_valid_all : ∀ (calls : List Call) (d : Database), d.valid →
    (∀ c ∈ calls, c.inDomain) →
    (d.run calls).valid ∧ (d.run calls).hashFunc = d.hashFunc := by
  intro calls
  induction calls with
  | nil => intro d hv _; exact ⟨hv, rfl⟩
  | cons c cs ih =>
    intro d hv hcs
    obtain ⟨hv1, hh1⟩ := call_valid_all d c hv (hcs c (List.mem_cons_self _ _)).1
    obtain ⟨hv2, hh2⟩ := ih (d.call c) hv1 (fun c1 hc1 => hcs c1 (List.mem_cons_of_mem _ hc1))
    exact ⟨hv2, by rw [← hh1, ← hh2]; rfl⟩

/-- On a store that satisfies the invariant, `get` of a key whose hash is in the
index reads its whole record: it returns an entry or (where the `uint32` sum of
the two lengths wraps around) panics, and never returns an error. -/
theorem get_valid_present (d : Database) (hv : d.valid) (k : Bytes) (h : header)
    (hx : d.index (d.hashFunc k) = some h) :
    (∃ e, d.get k = Run.ret (Except.ok e)) ∨ d.get k = Run.panic := by
  obtain ⟨hk, hvl, hlen, _⟩ := hv _ h hx
  have hmod : (h.klen + h.vlen) % 2 ^ 32 ≤ h.klen + h.vlen := Nat.mod_le _ _
  have hn : (h.klen + h.vlen) % 2 ^ 32 ≤ (d.f.drop h.offset).length := by
    rw [List.length_drop]; omega
  by_cases hkn : h.klen ≤ (h.klen + h.vlen) % 2 ^ 32
  · exact Or.inl ⟨_, get_present d k h hx hn hkn⟩
  · exact Or.inr (get_panic d k h hx hn (by omega))

/-! ## Claims on the record codec and on `BatchSet` -/

/-- C12: for every store whose log has length `L` and every key `k` and value `v`
of the input domain (lengths below `2 ^ 32`), `Set(k, v)` returns no error and the
index then maps the hash of `k` to a header with the tombstone flag clear,
`klen = len(k)`, `vlen = len(v)` and `offset = L +` the number of bytes that
`header.encode` wrote for it; the log bytes at `[offset, offset + klen)` are `k`;
and the entry under every other hash is unchanged. -/
theorem index_entry_written_by_Set (d : Database) (k v : Bytes)
    (hk : k.length < 2 ^ 32) (hv : v.length < 2 ^ 32) :
    ∃ d1 h out n, d.Set k v = Run.ret (d1, none) ∧
      d1.index (d.hashFunc k) = some h ∧
      h.deleted = false ∧ h.klen = k.length ∧ h.vlen = v.length ∧
      header.encode { h with offset := 0 } (List.replicate MaxHeaderSize 0) = some (out, n) ∧
      h.offset = d.f.length + n ∧
      (d1.f.drop h.offset).take h.klen = k ∧
      ∀ x, x ≠ d.hashFunc k → d1.index x = d.index x := by
  have hk1 : k.length % 2 ^ 32 = k.length := Nat.mod_eq_of_lt hk
  have hv1 : v.length % 2 ^ 32 = v.length := Nat.mod_eq_of_lt hv
  have hk64 : k.length % 2 ^ 64 = k.length := Nat.mod_eq_of_lt (lt_trans hk (by norm_num))
  have hv64 : v.length % 2 ^ 64 = v.length := Nat.mod_eq_of_lt (lt_trans hv (by norm_num))
  have hmax := headerBytes_length_le_max 0 k.length v.length hk hv
  have henc := encode_eq { meta := 0, klen := k.length, vlen := v.length, offset := 0 }
    (List.replicate MaxHeaderSize 0)
    (by simp only [hk64, hv64, List.length_replicate]; exact hmax)
  simp only [hk64, hv64] at henc
  refine ⟨_, header.mk 0 k.length v.length
      (d.f.length + (headerBytes 0 k.length v.length).length), _, _,
    Set_ret d k v, ?_, by simp [header.deleted], rfl, rfl, henc, rfl, ?_, ?_⟩
  · rw [state_after_Set, hk1, hv1]
    simp only [indexInsert, if_true]
  · rw [state_after_Set, hk1, hv1]
    simp only
    rw [List.drop_append_eq_append_drop, List.drop_of_length_le (by omega)]
    simp [List.drop_append]
  · intro x hx
    rw [state_after_Set]
    simp only [indexInsert, if_neg hx]

theorem index_entry_written_by_Set_witness :
    ∃ d1 h out n,
      ({ f := [9, 9], hashFunc := List.sum, index := fun _ => none } : Database).Set [1, 2] [3] =
        Run.ret (d1, none) ∧
      d1.index (List.sum [1, 2]) = some h ∧
      h.deleted = false ∧ h.klen = [1, 2].length ∧ h.vlen = [3].length ∧
      header.encode { h with offset := 0 } (List.replicate MaxHeaderSize 0) = some (out, n) ∧
      h.offset = [9, 9].length + n ∧
      (d1.f.drop h.offset).take h.klen = [1, 2] ∧
      ∀ x, x ≠ List.sum [1, 2] → d1.index x = (fun _ => none) x :=
  index_entry_written_by_Set { f := [9, 9], hashFunc := List.sum, index := fun _ => none }
    [1, 2] [3] (by decide) (by decide)

/-- C13: `BatchSet(keys, values)` with `len(keys) != len(values)` returns a
non-nil error and the store as it was: no record is appended and the index is
unchanged. -/
theorem BatchSet_length_mismatch (d : Database) (keys values : List Bytes)
    (h : keys.length ≠ values.length) :
    d.BatchSet keys values = Run.ret (d, some Error.differentLength) := by
  simp only [Database.BatchSet, if_pos h]

theorem BatchSet_length_mismatch_witness :
    ([[1], [2]] : List Bytes).length ≠ ([[3]] : List Bytes).length ∧
    ({ f := [0, 1, 1, 5, 6], hashFunc := List.sum, index := fun _ => none } : Database).BatchSet
        [[1], [2]] [[3]] =
      Run.ret ({ f := [0, 1, 1, 5, 6], hashFunc := List.sum, index := fun _ => none },
        some Error.differentLength) :=
  ⟨by decide,
    BatchSet_length_mismatch { f := [0, 1, 1, 5, 6], hashFunc := List.sum, index := fun _ => none }
      [[1], [2]] [[3]] (by decide)⟩

/-- C14: for every meta byte and all `klen`, `vlen` below `2 ^ 32`, on a buffer
of at least `MaxHeaderSize` bytes `header.encode` does not panic, writes the
header bytes and returns their number `1 + len(uvarint klen) + len(uvarint vlen)`,
with each varint 1 to 5 bytes long, so that the number is between
`MinHeaderSize = 3` and `MaxHeaderSize = 11`; the buffer keeps its length and
every byte behind that number is untouched. -/
theorem header_size_bound (meta klen vlen offset : Nat) (buf : Bytes)
    (hk : klen < 2 ^ 32) (hv : vlen < 2 ^ 32) (hbuf : MaxHeaderSize ≤ buf.length) :
    ∃ out n,
      header.encode { meta := meta, klen := klen, vlen := vlen, offset := offset } buf =
        some (out, n) ∧
      n = 1 + (uvarint klen).length + (uvarint vlen).length ∧
      1 ≤ (uvarint klen).length ∧ (uvarint klen).length ≤ 5 ∧
      1 ≤ (uvarint vlen).length ∧ (uvarint vlen).length ≤ 5 ∧
      MinHeaderSize ≤ n ∧ n ≤ MaxHeaderSize ∧
      out.take n = meta :: (uvarint klen ++ uvarint vlen) ∧
      out.length = buf.length ∧ out.drop n = buf.drop n := by
  have hk64 : klen % 2 ^ 64 = klen := Nat.mod_eq_of_lt (lt_trans hk (by norm_num))
  have hv64 : vlen % 2 ^ 64 = vlen := Nat.mod_eq_of_lt (lt_trans hv (by norm_num))
  have hmax := headerBytes_length_le_max meta klen vlen hk hv
  have hl := headerBytes_length meta klen vlen
  have hk1 := uvarint_length_pos klen
  have hv1 := uvarint_length_pos vlen
  have hk5 := uvarint_length_le_five klen hk
  have hv5 := uvarint_length_le_five vlen hv
  have henc := encode_eq { meta := meta, klen := klen, vlen := vlen, offset := offset } buf
    (by simp only [hk64, hv64]; omega)
  simp only [hk64, hv64] at henc
  refine ⟨_, _, henc, hl, hk1, hk5, hv1, hv5, ?_, hmax, ?_, ?_, ?_⟩
  · simp only [MinHeaderSize]; omega
  · rw [List.take_left]; rfl
  · rw [List.length_append, List.length_drop]; omega
  · rw [List.drop_left]

theorem header_size_bound_witness :
    ∃ out n,
      header.encode { meta := 1, klen := 4294967295, vlen := 0, offset := 7 }
        (List.replicate 11 9) = some (out, n) ∧
      n = 1 + (uvarint 4294967295).length + (uvarint 0).length ∧
      1 ≤ (uvarint 4294967295).length ∧ (uvarint 4294967295).length ≤ 5 ∧
      1 ≤ (uvarint 0).length ∧ (uvarint 0).length ≤ 5 ∧
      MinHeaderSize ≤ n ∧ n ≤ MaxHeaderSize ∧
      out.take n = 1 :: (uvarint 4294967295 ++ uvarint 0) ∧
      out.length = (List.replicate 11 9).length ∧ out.drop n = (List.replicate 11 9).drop n :=
  header_size_bound 1 4294967295 0 7 (List.replicate 11 9) (by norm_num) (by norm_num)
    (by decide)

/-- C16: for every header, `deleted()` is true if and only if bit 0 of `meta` is
1, whatever the other bits of `meta` and the values of `klen`, `vlen` and
`offset`; and the header that `decodeFrom` leaves after it read a meta byte `m`
reports `deleted()` if and only if bit 0 of `m` is 1. -/
theorem deleted_iff_bit0 :
    (∀ h : header, h.deleted = true ↔ h.meta % 2 = 1) ∧
    (∀ (h0 : header) (m c : Nat) (rest : Bytes),
      (h0.decodeFrom { reader := m :: rest, bytesRead := c }).1.1.meta = m ∧
      ((h0.decodeFrom { reader := m :: rest, bytesRead := c }).1.1.deleted = true ↔
        m % 2 = 1)) := by
  have h1 : ∀ h : header, h.deleted = true ↔ h.meta % 2 = 1 := by
    intro h
    simp [header.deleted, Nat.and_one_is_mod]
  refine ⟨h1, ?_⟩
  intro h0 m c rest
  have hm : (h0.decodeFrom { reader := m :: rest, bytesRead := c }).1.1.meta = m := by
    simp only [header.decodeFrom, ReadByte_cons]
    split
    · rfl
    · split <;> rfl
  exact ⟨hm, by rw [h1, hm]⟩

/-- C17: for every store and every `keys`, `values` of equal length,
`BatchSet(keys, values)` returns `nil` and leaves exactly the store (log and
index) that the calls `Set(keys[0], values[0])`, ..., `Set(keys[n-1], values[n-1])`
leave in that order (file operations do not fail in the embedding). -/
theorem BatchSet_eq_Sets (d : Database) (keys values : List Bytes)
    (h : keys.length = values.length) :
    d.BatchSet keys values = Run.ret (d.run (List.zipWith Call.set keys values), none) :=
  BatchSet_eq_Sets_aux d keys values h

theorem BatchSet_eq_Sets_witness :
    ({ f := [], hashFunc := List.sum, index := fun _ => none } : Database).BatchSet
        [[1], [2, 3]] [[4], []] =
      Run.ret (Database.run { f := [], hashFunc := List.sum, index := fun _ => none }
        (List.zipWith Call.set [[1], [2, 3]] [[4], []]), none) :=
  BatchSet_eq_Sets { f := [], hashFunc := List.sum, index := fun _ => none }
    [[1], [2, 3]] [[4], []] rfl

/-- C15 (the code at the failing input): with a hash function under which all
keys collide, after `Set([1], [2])` and then `Set` of a second key of `2 ^ 32 - 1`
bytes with a value of one byte, both of which return no error, `Get([1])` panics
instead of returning the second value. -/
theorem aliased_Get_panics_at_uint32_sum (f : Bytes) (index : Nat → Option header) :
    ∃ d1 d2,
      ({ f := f, hashFunc := fun _ => 0, index := index } : Database).Set [1] [2] =
        Run.ret (d1, none) ∧
      d1.Set (List.replicate 4294967295 0) [7] = Run.ret (d2, none) ∧
      d2.Get [1] = Run.panic := by
  refine ⟨_, _, Set_ret _ _ _, Set_ret _ _ _, ?_⟩
  rw [Get_congr_hash _ [1] (List.replicate 4294967295 0) (by rw [state_after_Set, state_after_Set])]
  exact Get_after_set_overflow _ _ _ length_replicate_max_lt (length_singleton_lt 7)
    length_replicate_max_sum

/-- C20 (the code at the failing input): on the header `klen = 1`, `vlen = 2`,
no tombstone, and the stream `[7, 8, 9]`, `decodeEntry` with the value succeeds,
returns the key `[7]` and the value `[8, 9]` and takes three bytes from the
stream, but the count it returns is 2. -/
theorem decodeEntry_count_with_value :
    decodeEntry { reader := [7, 8, 9], bytesRead := 0 }
        { meta := 0, klen := 1, vlen := 2, offset := 0 } true =
      ((Except.ok { value := [8, 9], key := [7] }, 2), { reader := [], bytesRead := 3 }) :=
  rfl

/-! ## Claims on the rebuild and on the invariant -/

/-- C18: in every state reached by a successful `Open` on any log followed by
any sequence of `Set`, `Delete`, `BatchSet` and `Get` calls (within the input
domain), each index entry `x -> h` satisfies `h.offset + h.klen + h.vlen <=` the
log length, and the `klen` log bytes at `h.offset` hash to `x`; and `Get` and
`Delete` on a key whose hash is in the index never return an error (so no
short-read error). -/
theorem index_validity_invariant (hashFunc : Bytes → Nat) (log : Bytes) (d0 : Database)
    (hopen : Open hashFunc log = some (Except.ok d0)) (calls : List Call)
    (hcs : ∀ c ∈ calls, c.inDomain) :
    (∀ x h, (d0.run calls).index x = some h →
      h.offset + h.klen + h.vlen ≤ (d0.run calls).f.length ∧
      (d0.run calls).hashFunc (((d0.run calls).f.drop h.offset).take h.klen) = x) ∧
    (∀ k, (d0.run calls).index ((d0.run calls).hashFunc k) ≠ none →
      (∀ v err, (d0.run calls).Get k ≠ Run.ret (v, some err)) ∧
      (∀ d1 err, (d0.run calls).Delete k ≠ Run.ret (d1, some err))) := by
  obtain ⟨hf, hh, hv0⟩ := Open_valid hashFunc log d0 hopen
  have hv0' : d0.valid := by
    simp only [Database.valid, hf, hh]; exact hv0
  obtain ⟨hv, _⟩ := run_valid_all calls d0 hv0' hcs
  generalize d0.run calls = d at hv ⊢
  refine ⟨fun x h hx => ⟨(hv x h hx).2.2.1, (hv x h hx).2.2.2⟩, ?_⟩
  intro k hne
  cases hx : d.index (d.hashFunc k) with
  | none => exact absurd hx hne
  | some h =>
    rcases get_valid_present d hv k h hx with ⟨e, hg⟩ | hg
    · constructor
      · intro v err
        simp [Database.Get, hg]
      · intro d1 err
        simp [Database.Delete, hg, save_delete_eq]
    · constructor
      · intro v err
        simp [Database.Get, hg]
      · intro d1 err
        simp [Database.Delete, hg]

theorem index_validity_invariant_witness :
    (Database.run
        { f := [0, 1, 1, 7, 8], hashFunc := List.sum,
          index := indexInsert (fun _ => none) 7 ⟨0, 1, 1, 3⟩ }
        [Call.set [1] [2], Call.get [1], Call.batchSet [[3]] [[4]], Call.delete [1]]).index 3 = some ⟨0, 1, 1, 13⟩ ∧
    (13 + 1 + 1 ≤ (Database.run
        { f := [0, 1, 1, 7, 8], hashFunc := List.sum,
          index := indexInsert (fun _ => none) 7 ⟨0, 1, 1, 3⟩ }
        [Call.set [1] [2], Call.get [1], Call.batchSet [[3]] [[4]], Call.delete [1]]).f.length ∧
      (Database.run
        { f := [0, 1, 1, 7, 8], hashFunc := List.sum,
          index := indexInsert (fun _ => none) 7 ⟨0, 1, 1, 3⟩ }
        [Call.set [1] [2], Call.get [1], Call.batchSet [[3]] [[4]], Call.delete [1]]).hashFunc
        (((Database.run
        { f := [0, 1, 1, 7, 8], hashFunc := List.sum,
          index := indexInsert (fun _ => none) 7 ⟨0, 1, 1, 3⟩ }
        [Call.set [1] [2], Call.get [1], Call.batchSet [[3]] [[4]], Call.delete [1]]).f.drop 13).take 1) = 3) ∧
    (Database.run
        { f := [0, 1, 1, 7, 8], hashFunc := List.sum,
          index := indexInsert (fun _ => none) 7 ⟨0, 1, 1, 3⟩ }
        [Call.set [1] [2], Call.get [1], Call.batchSet [[3]] [[4]], Call.delete [1]]).Get [3] ≠ Run.ret (none, some Error.ErrNotExists) ∧
    (Database.run
        { f := [0, 1, 1, 7, 8], hashFunc := List.sum,
          index := indexInsert (fun _ => none) 7 ⟨0, 1, 1, 3⟩ }
        [Call.set [1] [2], Call.get [1], Call.batchSet [[3]] [[4]], Call.delete [1]]).Delete [3] ≠
      Run.ret ({ f := [], hashFunc := List.sum, index := fun _ => none },
        some Error.ErrNotExists) :=
  ⟨rfl,
    (index_validity_invariant List.sum [0, 1, 1, 7, 8]
      { f := [0, 1, 1, 7, 8], hashFunc := List.sum,
        index := indexInsert (fun _ => none) 7 ⟨0, 1, 1, 3⟩ }
      rfl [Call.set [1] [2], Call.get [1], Call.batchSet [[3]] [[4]], Call.delete [1]]
      (by
        intro c hc
        simp only [List.mem_cons, List.mem_singleton, List.not_mem_nil, or_false] at hc
        rcases hc with rfl | rfl | rfl | rfl <;>
          simp [Call.inDomain, Call.keys, Call.values])).1 3 ⟨0, 1, 1, 13⟩ rfl,
    ((index_validity_invariant List.sum [0, 1, 1, 7, 8]
      { f := [0, 1, 1, 7, 8], hashFunc := List.sum,
        index := indexInsert (fun _ => none) 7 ⟨0, 1, 1, 3⟩ }
      rfl [Call.set [1] [2], Call.get [1], Call.batchSet [[3]] [[4]], Call.delete [1]]
      (by
        intro c hc
        simp only [List.mem_cons, List.mem_singleton, List.not_mem_nil, or_false] at hc
        rcases hc with rfl | rfl | rfl | rfl <;>
          simp [Call.inDomain, Call.keys, Call.values])).2 [3]
      (fun h => Option.noConfusion
        ((show (Database.run
        { f := [0, 1, 1, 7, 8], hashFunc := List.sum,
          index := indexInsert (fun _ => none) 7 ⟨0, 1, 1, 3⟩ }
        [Call.set [1] [2], Call.get [1], Call.batchSet [[3]] [[4]], Call.delete [1]]).index 3 = some ⟨0, 1, 1, 13⟩ from rfl).symm.trans h))).1
      none Error.ErrNotExists,
    ((index_validity_invariant List.sum [0, 1, 1, 7, 8]
      { f := [0, 1, 1, 7, 8], hashFunc := List.sum,
        index := indexInsert (fun _ => none) 7 ⟨0, 1, 1, 3⟩ }
      rfl [Call.set [1] [2], Call.get [1], Call.batchSet [[3]] [[4]], Call.delete [1]]
      (by
        intro c hc
        simp only [List.mem_cons, List.mem_singleton, List.not_mem_nil, or_false] at hc
        rcases hc with rfl | rfl | rfl | rfl <;>
          simp [Call.inDomain, Call.keys, Call.values])).2 [3]
      (fun h => Option.noConfusion
        ((show (Database.run
        { f := [0, 1, 1, 7, 8], hashFunc := List.sum,
          index := indexInsert (fun _ => none) 7 ⟨0, 1, 1, 3⟩ }
        [Call.set [1] [2], Call.get [1], Call.batchSet [[3]] [[4]], Call.delete [1]]).index 3 = some ⟨0, 1, 1, 13⟩ from rfl).symm.trans h))).2
      { f := [], hashFunc := List.sum, index := fun _ => none } Error.ErrNotExists⟩

/-- C19: for every sequence of `Set` and `Delete` calls (within the input domain)
applied to a store opened on an empty log, the log is a concatenation of complete
records and `Open` on it succeeds; every entry of the index in memory is in the
rebuilt index under the same hash, the very same header; every entry of the
rebuilt index that is not in the index in memory is a tombstone header; and when
the sequence has no `Delete` the two indexes are equal. -/
theorem rebuilt_index_versus_live_index (hashFunc : Bytes → Nat) (calls : List Call)
    (hcs : ∀ c ∈ calls, c.isSetOrDelete ∧ c.inDomain) :
    ∃ d1,
      Open hashFunc
          (Database.run { f := [], hashFunc := hashFunc, index := fun _ => none } calls).Close.1 =
        some (Except.ok d1) ∧
      (∃ recs : List (Nat × Bytes × Bytes),
        (Database.run { f := [], hashFunc := hashFunc, index := fun _ => none } calls).f =
          (recs.map fun r => recordBytes r.1 r.2.1 r.2.2).flatten) ∧
      (∀ x h,
        (Database.run { f := [], hashFunc := hashFunc, index := fun _ => none } calls).index x =
          some h → d1.index x = some h) ∧
      (∀ x t, d1.index x = some t →
        (Database.run { f := [], hashFunc := hashFunc, index := fun _ => none } calls).index x ≠
          some t → t.deleted = true) ∧
      ((∀ c ∈ calls, ¬ c.isDelete) →
        d1.index =
          (Database.run { f := [], hashFunc := hashFunc, index := fun _ => none } calls).index) := by
  obtain ⟨idx, ho, hr⟩ := Open_after_calls hashFunc calls hcs
  obtain ⟨recs, hrec⟩ := run_records calls
    { f := [], hashFunc := hashFunc, index := fun _ => none } hcs
  refine ⟨_, ho, ⟨recs, by simpa using hrec⟩, ?_, ?_, ?_⟩
  · intro x h hx
    rcases hr x with he | ⟨hn, _⟩
    · simp only
      rw [← he]; exact hx
    · rw [hn] at hx; cases hx
  · intro x t ht hne
    simp only at ht
    rcases hr x with he | ⟨_, t1, ht1, hdel, _⟩
    · exact absurd (by rw [he]; exact ht) hne
    · rw [ht1] at ht
      cases ht
      exact hdel
  · intro hnd
    have hsets : ∀ c ∈ calls, c.isSetInDomain := by
      intro c hc
      obtain ⟨h1, h2⟩ := hcs c hc
      have h3 := hnd c hc
      cases c with
      | set key value =>
        exact ⟨h2.1 key (by simp [Call.keys]), h2.2 value (by simp [Call.values])⟩
      | delete key => exact absurd trivial h3
      | get key => exact absurd h1 (by simp [Call.isSetOrDelete])
      | batchSet keys values => exact absurd h1 (by simp [Call.isSetOrDelete])
    have ho2 := Open_after_sets hashFunc calls hsets
    simp only [Database.Close] at ho2
    rw [ho] at ho2
    simp only [Option.some.injEq, Except.ok.injEq] at ho2
    rw [← ho2]

theorem rebuilt_index_versus_live_index_witness :
    ∃ d1,
      Open List.sum
          (Database.run { f := [], hashFunc := List.sum, index := fun _ => none }
            [Call.set [1] [2], Call.delete [1], Call.set [3] []]).Close.1 =
        some (Except.ok d1) ∧
      (∃ recs : List (Nat × Bytes × Bytes),
        (Database.run { f := [], hashFunc := List.sum, index := fun _ => none }
            [Call.set [1] [2], Call.delete [1], Call.set [3] []]).f =
          (recs.map fun r => recordBytes r.1 r.2.1 r.2.2).flatten) ∧
      (∀ x h,
        (Database.run { f := [], hashFunc := List.sum, index := fun _ => none }
            [Call.set [1] [2], Call.delete [1], Call.set [3] []]).index x =
          some h → d1.index x = some h) ∧
      (∀ x t, d1.index x = some t →
        (Database.run { f := [], hashFunc := List.sum, index := fun _ => none }
            [Call.set [1] [2], Call.delete [1], Call.set [3] []]).index x ≠
          some t → t.deleted = true) ∧
      ((∀ c ∈ [Call.set [1] [2], Call.delete [1], Call.set [3] []], ¬ c.isDelete) →
        d1.index =
          (Database.run { f := [], hashFunc := List.sum, index := fun _ => none }
            [Call.set [1] [2], Call.delete [1], Call.set [3] []]).index) :=
  rebuilt_index_versus_live_index List.sum [Call.set [1] [2], Call.delete [1], Call.set [3] []]
    (by
      intro c hc
      simp only [List.mem_cons, List.mem_singleton, List.not_mem_nil, or_false] at hc
      rcases hc with rfl | rfl | rfl <;>
        simp [Call.isSetOrDelete, Call.inDomain, Call.keys, Call.values])

/-- C11: let a store, opened on a log made of complete records (the empty log
for one) and used with `Set` and `Delete` calls of the input domain, have
`Set(k, v)` followed by a `Delete(k)` that returned no error, and after that only
calls on keys with another hash.  Then in the session `Get(k)` returns
`ErrNotExists`; after `Close`, `Open` on the same log succeeds, its index holds a
tombstone header under the hash of `k`, and `Get(k)` on the reopened store
returns no error and an empty value. -/
theorem tombstone_reappears_after_reopen (hashFunc : Bytes → Nat)
    (recs : List (Nat × Bytes × Bytes)) (d0 : Database) (before after : List Call)
    (k v : Bytes) (d2 : Database)
    (hrecs : ∀ r ∈ recs, r.2.1.length < 2 ^ 32 ∧ r.2.2.length < 2 ^ 32)
    (hopen : Open hashFunc (recordsLog recs) = some (Except.ok d0))
    (hb : ∀ c ∈ before, c.isSetOrDelete ∧ c.inDomain)
    (hk : k.length < 2 ^ 32) (hv : v.length < 2 ^ 32)
    (hdel : ((d0.run before).call (Call.set k v)).Delete k = Run.ret (d2, none))
    (ha : ∀ c ∈ after, c.isSetOrDelete ∧ c.inDomain ∧ ∀ k1 ∈ c.keys, hashFunc k1 ≠ hashFunc k) :
    (d2.run after).Get k = Run.ret (none, some Error.ErrNotExists) ∧
    ∃ d3 t, Open hashFunc (d2.run after).Close.1 = some (Except.ok d3) ∧
      d3.index (hashFunc k) = some t ∧ t.deleted = true ∧
      d3.Get k = Run.ret (some [], none) := by
  obtain ⟨hf0, hh0, hval0⟩ := Open_valid hashFunc _ d0 hopen
  have hv0 : d0.valid := by
    simp only [Database.valid, hf0, hh0]; exact hval0
  obtain ⟨hv1, hh1', _⟩ := run_valid before d0 hv0 hb
  have hh1 : (d0.run before).hashFunc = hashFunc := by rw [hh1', hh0]
  have hset : (Call.set k v).isSetOrDelete ∧ (Call.set k v).inDomain :=
    ⟨trivial, set_inDomain k v hk hv⟩
  have hdl : (Call.delete k).isSetOrDelete ∧ (Call.delete k).inDomain :=
    ⟨trivial, delete_inDomain k hk⟩
  have hfirst : ∀ c ∈ before ++ [Call.set k v], c.isSetOrDelete ∧ c.inDomain := by
    intro c hc
    rcases List.mem_append.mp hc with h | h
    · exact hb c h
    · rw [List.mem_singleton] at h; subst h; exact hset
  have hsecond : ∀ c ∈ Call.delete k :: after, c.isSetOrDelete ∧ c.inDomain := by
    intro c hc
    rcases List.mem_cons.mp hc with h | h
    · subst h; exact hdl
    · exact ⟨(ha c h).1, (ha c h).2.1⟩
  obtain ⟨idx1, idx2, ho, hr1, hr2, hm, _⟩ :=
    Open_after_calls_two hashFunc recs hrecs d0 hopen (before ++ [Call.set k v])
      (Call.delete k :: after) hfirst hsecond
  have hrunA : d0.run (before ++ [Call.set k v]) = (d0.run before).call (Call.set k v) := by
    rw [run_append]; rfl
  have hcallB : ((d0.run before).call (Call.set k v)).call (Call.delete k) = d2 := by
    show Run.state _ (Database.Delete _ k) = d2
    rw [hdel]; rfl
  have hrunB : d0.run ((before ++ [Call.set k v]) ++ Call.delete k :: after) =
      d2.run after := by
    rw [run_append, hrunA]
    show Database.run (Database.call _ (Call.delete k)) after = _
    rw [hcallB]
  rw [hrunA] at hr1
  rw [hrunB] at ho hr2
  generalize d0.run before = d1 at hv1 hh1 hdel hr1 hcallB
  have hX : d1.call (Call.set k v) = Run.state d1 (d1.Set k v) := rfl
  have hlen : k.length + v.length < 2 ^ 32 := by
    by_contra hcon
    have hp := Delete_after_set_overflow d1 k v hk hv (by omega)
    rw [hX, hp] at hdel
    cases hdel
  obtain ⟨hvA, hhA, _⟩ := call_valid d1 (Call.set k v) hv1 trivial hset.2.1
  obtain ⟨hvB, hhB, _⟩ := call_valid _ (Call.delete k) hvA trivial hdl.2.1
  rw [hcallB] at hvB hhB
  have hhd2 : d2.hashFunc = hashFunc := by rw [hhB, hhA, hh1]
  have hd2 := Delete_after_set d1 k v hlen
  rw [hX, hd2] at hdel
  simp only [Run.ret.injEq, Prod.mk.injEq, and_true] at hdel
  rw [hX] at hr1
  have hlive2 : d2.index (hashFunc k) = none := by
    rw [← hdel]
    simp only [indexDelete, hh1, if_true]
  have hlive : (d2.run after).index (hashFunc k) = none := by
    rw [run_index_other (hashFunc k) after d2 hvB
      (fun c hc => by
        obtain ⟨a, b, e⟩ := ha c hc
        exact ⟨a, b, by rw [hhd2]; exact e⟩)]
    exact hlive2
  obtain ⟨_, hhrun⟩ := run_valid_all after d2 hvB (fun c hc => (ha c hc).2.1)
  have hidx1 : idx1 (hashFunc k) ≠ none := by
    rcases hr1 (hashFunc k) with he | ⟨hn, _⟩
    · rw [← he, state_after_Set]
      simp [indexInsert, hh1]
    · rw [state_after_Set] at hn
      simp [indexInsert, hh1] at hn
  obtain ⟨t, ht, htd, htv⟩ : ∃ t, idx2 (hashFunc k) = some t ∧ t.deleted = true ∧ t.vlen = 0 := by
    rcases hr2 (hashFunc k) with he | ⟨_, t, h1, h2, h3⟩
    · exact absurd (by rw [← he]; exact hlive) (hm _ hidx1)
    · exact ⟨t, h1, h2, h3⟩
  constructor
  · simp only [Database.Get]
    rw [get_absent _ k (by rw [hhrun, hhd2]; exact hlive)]
  · simp only [Database.Close]
    refine ⟨_, t, ho, ht, htd, ?_⟩
    obtain ⟨_, _, hval⟩ := Open_valid hashFunc _ _ ho
    obtain ⟨hkl, _, hlen2, _⟩ := hval _ t ht
    have hn0 : (t.klen + t.vlen) % 2 ^ 32 = t.klen := by
      rw [htv, Nat.add_zero]; exact Nat.mod_eq_of_lt hkl
    simp only [Database.Get]
    rw [get_present _ k t ht (by rw [hn0, List.length_drop]; simp only; omega)
      (by rw [hn0])]
    simp only [hn0]
    have hnil : List.drop t.klen (List.take t.klen (List.drop t.offset (d2.run after).f)) = [] :=
      List.drop_eq_nil_of_le (by rw [List.length_take]; exact Nat.min_le_left _ _)
    rw [hnil]

theorem tombstone_reappears_after_reopen_witness :
    (Database.run
        { f := [0, 1, 1, 7, 8, 0, 2, 1, 1, 2, 3, 1, 2, 0, 1, 2], hashFunc := List.sum,
          index := indexDelete
            (indexInsert (indexInsert (fun _ => none) 7 ⟨0, 1, 1, 3⟩) 3 ⟨0, 2, 1, 8⟩) 3 }
        [Call.set [5] [6]]).Get [1, 2] = Run.ret (none, some Error.ErrNotExists) ∧
    ∃ d3 t,
      Open List.sum
          (Database.run
            { f := [0, 1, 1, 7, 8, 0, 2, 1, 1, 2, 3, 1, 2, 0, 1, 2], hashFunc := List.sum,
              index := indexDelete
                (indexInsert (indexInsert (fun _ => none) 7 ⟨0, 1, 1, 3⟩) 3 ⟨0, 2, 1, 8⟩) 3 }
            [Call.set [5] [6]]).Close.1 = some (Except.ok d3) ∧
      d3.index (List.sum [1, 2]) = some t ∧ t.deleted = true ∧
      d3.Get [1, 2] = Run.ret (some [], none) :=
  tombstone_reappears_after_reopen List.sum [(0, [7], [8])]
    { f := [0, 1, 1, 7, 8], hashFunc := List.sum,
      index := indexInsert (fun _ => none) 7 ⟨0, 1, 1, 3⟩ }
    [] [Call.set [5] [6]] [1, 2] [3]
    { f := [0, 1, 1, 7, 8, 0, 2, 1, 1, 2, 3, 1, 2, 0, 1, 2], hashFunc := List.sum,
      index := indexDelete
        (indexInsert (indexInsert (fun _ => none) 7 ⟨0, 1, 1, 3⟩) 3 ⟨0, 2, 1, 8⟩) 3 }
    (by
      intro r hr
      rw [List.mem_singleton] at hr
      subst hr
      exact ⟨by decide, by decide⟩)
    (by
      have h : recordsLog [(0, [7], [8])] = [0, 1, 1, 7, 8] := by
        simp [recordsLog, recordBytes, headerBytes, uvarint_lt]
      rw [h]; rfl)
    (by intro c hc; cases hc) (by decide) (by decide) rfl
    (by
      intro c hc
      rw [List.mem_singleton] at hc
      subst hc
      simp [Call.isSetOrDelete, Call.inDomain, Call.keys, Call.values])

end LogDB
